import Mathlib

/-!
# Verification of the notes metadata/relationship core

A shallow embedding of the note-taking tool's core: the note record codec
(frontmatter header + body), the content fingerprint, the metadata index with
its bidirectional relation maintenance and staleness detection, and the
relationship-graph traversals.  Go strings are modelled as `List Char`
(all marker characters are ASCII, so character positions coincide with byte
positions wherever the code indexes into a string), Go maps as functions into
`Option`, and the shared mutable visited set of the traversals as explicit
state passing.
-/

set_option maxRecDepth 4000

/-- Go strings, as lists of characters. -/
abbrev GoStr := List Char

/-- Shorthand to write a `GoStr` from a string literal. -/
def gs (s : String) : GoStr := s.data

/-- `strings.HasPrefix`: `startsWith s pre` is true when `pre` is an initial
segment of `s`. -/
def startsWith : GoStr → GoStr → Bool
  | _, [] => true
  | [], _ :: _ => false
  | c :: s, p :: pre => if c = p then startsWith s pre else false

/-- `strings.HasSuffix`: true when `suf` is a final segment of `s`. -/
def endsWith (s suf : GoStr) : Bool := startsWith s.reverse suf.reverse

/-- `strings.Index`: index of the first occurrence of `pat` in `s`, `none`
standing for Go's `-1`. -/
def findSubstr (pat : GoStr) : GoStr → Option Nat
  | [] => if startsWith [] pat then some 0 else none
  | c :: s => if startsWith (c :: s) pat then some 0
              else (findSubstr pat s).map (· + 1)

/-- An entry of `.meta.json`: the Go `FileMeta` struct.  `EnrichedAt` is a
`time.Time` whose zero value means "never enriched"; it is modelled as an
`Option` over an abstract instant. -/
structure FileMeta where
  contentHash : GoStr
  enrichedAt : Option Nat
  tags : List GoStr
  summary : GoStr
  related : List GoStr
deriving DecidableEq

/-- The zero value `FileMeta{}` that Go's `new(FileMeta)` produces. -/
def FileMeta.zero : FileMeta := ⟨[], none, [], [], []⟩

/-- The `.meta.json` index: the Go `MetaFile` struct, its `Files` map modelled
as a function into `Option`. -/
structure MetaFile where
  files : GoStr → Option FileMeta

/-- Pointwise update of the `Files` map: `m.Files[filename] = meta`. -/
def MetaFile.setFile (m : MetaFile) (filename : GoStr) (meta : FileMeta) : MetaFile :=
  ⟨fun k => if k = filename then some meta else m.files k⟩

/-- `MetaFile.NeedsEnrichment`: a note needs enrichment when it has no entry
or its stored hash differs from the current one. -/
def MetaFile.NeedsEnrichment (m : MetaFile) (filename currentHash : GoStr) : Bool :=
  match m.files filename with
  | none => true
  | some meta => decide (meta.contentHash ≠ currentHash)

/-- `Contains`: Go's linear scan of a string slice for an item. -/
def Contains : List GoStr → GoStr → Bool
  | [], _ => false
  | s :: rest, item => if s = item then true else Contains rest item

/-- `RemoveString`: Go's rebuild of a string slice without an item,
preserving order. -/
def RemoveString : List GoStr → GoStr → List GoStr
  | [], _ => []
  | s :: rest, item => if s ≠ item then s :: RemoveString rest item else RemoveString rest item

/-- One block of `AddRelation`: if `x` has an entry whose `Related` list does
not already contain `y`, append `y` to it; otherwise leave the index
unchanged. -/
def addRelationSide (m : MetaFile) (x y : GoStr) : MetaFile :=
  match m.files x with
  | some meta =>
      if Contains meta.related y then m
      else m.setFile x { meta with related := meta.related ++ [y] }
  | none => m

/-- `MetaFile.AddRelation`: adds a bidirectional relation — the two symmetric
blocks of the Go function in order, the second observing the first's update
(the Go code mutates the shared map in place).  Each side is updated only if
its entry exists, and only if the other identifier is not already in its
`Related` list. -/
def MetaFile.AddRelation (m : MetaFile) (a b : GoStr) : MetaFile :=
  addRelationSide (addRelationSide m a b) b a

/-- One block of `RemoveRelation`: if `x` has an entry, rebuild its `Related`
list without `y`. -/
def removeRelationSide (m : MetaFile) (x y : GoStr) : MetaFile :=
  match m.files x with
  | some meta => m.setFile x { meta with related := RemoveString meta.related y }
  | none => m

/-- `MetaFile.RemoveRelation`: removes a bidirectional relation, skipping
any side without an entry. -/
def MetaFile.RemoveRelation (m : MetaFile) (a b : GoStr) : MetaFile :=
  removeRelationSide (removeRelationSide m a b) b a

/-- The entry-removal pass of `CmdSync` (`notes sync`), with the set of
identifiers whose backing file still exists passed in explicitly: every
indexed identifier whose file is gone has its entry deleted. -/
def MetaFile.reconcile (m : MetaFile) (currentIds : List GoStr) : MetaFile :=
  ⟨fun k => match m.files k with
    | some meta => if k ∈ currentIds then some meta else none
    | none => none⟩

/-- A node of the neighborhood tree produced by `notes graph <filename>`:
one identifier with its display summary and its expanded children.  In the
text rendering each node stands for one printed line. -/
inductive GraphNode where
  | node (filename : GoStr) (summary : GoStr) (related : List GraphNode)

/-- The identifier of a tree node. -/
def GraphNode.filename : GraphNode → GoStr
  | .node f _ _ => f

/-- The children of a tree node. -/
def GraphNode.children : GraphNode → List GraphNode
  | .node _ _ r => r

mutual

/-- The recursive `buildGraph` closure of `showNeighborhood` (JSON output).
The shared mutable `visited` map is threaded as explicit state; `summaries`
stands for the impure `getSummary notesDir meta` lookup.  A node is expanded
only when depth remains and it has not been visited, and is then marked
visited before its children are built. -/
def buildGraph (meta : MetaFile) (summaries : GoStr → GoStr) (f : GoStr) (d : Int)
    (visited : List GoStr) : GraphNode × List GoStr :=
  if d ≤ 0 ∨ f ∈ visited then (.node f (summaries f) [], visited)
  else
    let visited1 := f :: visited
    match meta.files f with
    | some fileMeta =>
        let r := buildGraphList meta summaries fileMeta.related (d - 1) visited1
        (.node f (summaries f) r.1, r.2)
    | none => (.node f (summaries f) [], visited1)
termination_by (d.toNat, 0)

/-- The `for _, rel := range fileMeta.Related` loop of `buildGraph`: children
are built left to right, each seeing the visited set left by the previous
one. -/
def buildGraphList (meta : MetaFile) (summaries : GoStr → GoStr) (rels : List GoStr) (d : Int)
    (visited : List GoStr) : List GraphNode × List GoStr :=
  match rels with
  | [] => ([], visited)
  | rel :: rest =>
      let c := buildGraph meta summaries rel d visited
      let r := buildGraphList meta summaries rest d c.2
      (c.1 :: r.1, r.2)
termination_by (d.toNat, rels.length + 1)

end

/-- The JSON branch of `showNeighborhood`: build the tree from the root with
a fresh visited set. -/
def showNeighborhoodJSON (meta : MetaFile) (summaries : GoStr → GoStr) (filename : GoStr)
    (depth : Int) : GraphNode :=
  (buildGraph meta summaries filename depth []).1

/-- `printTree`, the text rendering of a neighborhood: each printed line is
modelled as a `GraphNode` whose children are the lines printed nested under
it.  A line is always printed for every entry of `related`; only afterwards
does the depth/visited check decide whether the entry is expanded, and the
already-visited members of its relation list are filtered out before
recursing. -/
def printTree (meta : MetaFile) (summaries : GoStr → GoStr) (related : List GoStr) (depth : Int)
    (visited : List GoStr) : List GraphNode × List GoStr :=
  match related with
  | [] => ([], visited)
  | rel :: rest =>
      let c : List GraphNode × List GoStr :=
        if depth > 0 ∧ rel ∉ visited then
          let visited1 := rel :: visited
          match meta.files rel with
          | some fileMeta =>
              if fileMeta.related.length > 0 then
                let unvisited := fileMeta.related.filter (fun r => r ∉ visited1)
                if unvisited.length > 0 then
                  printTree meta summaries unvisited (depth - 1) visited1
                else ([], visited1)
              else ([], visited1)
          | none => ([], visited1)
        else (([] : List GraphNode), visited)
      let r := printTree meta summaries rest depth c.2
      (GraphNode.node rel (summaries rel) c.1 :: r.1, r.2)
termination_by (depth.toNat, related.length)

/-- The text branch of `showNeighborhood`: the root line is printed and
marked visited, then `printTree` renders its relation list with `depth - 1`
remaining. -/
def showNeighborhoodText (meta : MetaFile) (summaries : GoStr → GoStr) (filename : GoStr)
    (depth : Int) : GraphNode :=
  let visited := [filename]
  match meta.files filename with
  | none => .node filename (summaries filename) []
  | some fileMeta =>
      .node filename (summaries filename)
        (printTree meta summaries fileMeta.related (depth - 1) visited).1

/-- `NoteTime`: a Go `time.Time` restricted to the fields the note header
format carries (minute precision). -/
structure NoteTime where
  year : Nat
  month : Nat
  day : Nat
  hour : Nat
  minute : Nat
deriving DecidableEq

/-- The zero `time.Time`: January 1 of year 1, 00:00.  An unset `created`
field holds this value. -/
def NoteTime.zero : NoteTime := ⟨1, 1, 1, 0, 0⟩

/-- Two decimal digits, zero padded: the `01`/`02`/`15`/`04` verbs of the
`2006-01-02 15:04` layout applied to an in-range component. -/
def pad2 (n : Nat) : GoStr := [Nat.digitChar (n / 10 % 10), Nat.digitChar (n % 10)]

/-- Four decimal digits, zero padded: the `2006` year verb for years up
to 9999. -/
def pad4 (n : Nat) : GoStr :=
  [Nat.digitChar (n / 1000 % 10), Nat.digitChar (n / 100 % 10),
   Nat.digitChar (n / 10 % 10), Nat.digitChar (n % 10)]

/-- `t.Format("2006-01-02 15:04")`, the single fixed format the serializer
uses for timestamps. -/
def formatNoteTime (t : NoteTime) : GoStr :=
  pad4 t.year ++ gs "-" ++ pad2 t.month ++ gs "-" ++ pad2 t.day
    ++ gs " " ++ pad2 t.hour ++ gs ":" ++ pad2 t.minute

/-- The numeric value of a decimal digit character. -/
def charDigit (c : Char) : Option Nat :=
  if '0' ≤ c ∧ c ≤ '9' then some (c.toNat - 48) else none

/-- Whether `y` is a leap year (Gregorian rule). -/
def isLeap (y : Nat) : Bool := y % 4 = 0 && (y % 100 ≠ 0 || y % 400 = 0)

/-- Days in month `m` of year `y`. -/
def daysIn (y m : Nat) : Nat :=
  if m = 2 then (if isLeap y then 29 else 28)
  else if m = 4 ∨ m = 6 ∨ m = 9 ∨ m = 11 then 30
  else 31

/-- Whether the component values form a calendar date and time that
`time.Parse` accepts. -/
def NoteTime.valid (t : NoteTime) : Bool :=
  1 ≤ t.month && t.month ≤ 12 && 1 ≤ t.day && t.day ≤ daysIn t.year t.month
    && t.hour ≤ 23 && t.minute ≤ 59

/-- `time.Parse("2006-01-02 15:04", s)`: sixteen characters in the fixed
layout, with the component ranges validated. -/
def parseNoteTime (s : GoStr) : Option NoteTime :=
  match s with
  | [y1, y2, y3, y4, s1, m1, m2, s2, d1, d2, s3, h1, h2, s4, n1, n2] =>
      if s1 = '-' ∧ s2 = '-' ∧ s3 = ' ' ∧ s4 = ':' then do
      let a ← charDigit y1
      let b ← charDigit y2
      let c ← charDigit y3
      let d ← charDigit y4
      let mo1 ← charDigit m1
      let mo2 ← charDigit m2
      let da1 ← charDigit d1
      let da2 ← charDigit d2
      let ho1 ← charDigit h1
      let ho2 ← charDigit h2
      let mi1 ← charDigit n1
      let mi2 ← charDigit n2
      let t : NoteTime :=
        ⟨((a * 10 + b) * 10 + c) * 10 + d, mo1 * 10 + mo2, da1 * 10 + da2,
         ho1 * 10 + ho2, mi1 * 10 + mi2⟩
      if t.valid then some t else none
      else none
  | _ => none

/-- The `created` value as `NoteTime.UnmarshalYAML` reads it: an empty scalar
is the zero time, otherwise the fixed note layout.  (The Go code additionally
accepts RFC3339-style fallbacks for hand-written headers; the serializer only
ever emits the fixed layout, so they are not modelled.) -/
def parseTimeValue (s : GoStr) : Option NoteTime :=
  if s = [] then some NoteTime.zero else parseNoteTime s

/-- The YAML frontmatter of a note: the Go `Frontmatter` struct. -/
structure Frontmatter where
  created : NoteTime
  tags : List GoStr
  summary : GoStr
  related : List GoStr
deriving DecidableEq

/-- The zero `Frontmatter`: unset creation time, no tags, empty summary, no
relations.  This is what a note without a header carries. -/
def Frontmatter.empty : Frontmatter := ⟨NoteTime.zero, [], [], []⟩

/-- A note: the Go `Note` struct — filename, parsed frontmatter, and the body
content without the frontmatter block. -/
structure Note where
  filename : GoStr
  frontmatter : Frontmatter
  content : GoStr
deriving DecidableEq

/-- `strings.Join`-style interleaving of a separator, as the serializer's
element loop produces it. -/
def joinSep (sep : GoStr) : List GoStr → GoStr
  | [] => []
  | [x] => x
  | x :: rest => x ++ sep ++ joinSep sep rest

/-- A YAML flow sequence as `ToMarkdown` emits it: `[]` when empty, otherwise
the elements joined by `", "` inside brackets. -/
def flowList (l : List GoStr) : GoStr := gs "[" ++ joinSep (gs ", ") l ++ gs "]"

/-- Modelled from the spec: the escaping Go's `fmt` `%q` verb applies to the
single-line summary.  The four escapes reachable for printable text are
modelled; `%q` additionally escapes control and non-printable characters,
which the theorems below exclude by hypothesis. -/
def quoteChar (c : Char) : GoStr :=
  if c = '"' then ['\\', '"']
  else if c = '\\' then ['\\', '\\']
  else if c = '\n' then ['\\', 'n']
  else if c = '\t' then ['\\', 't']
  else [c]

/-- A double-quoted string in the style of Go's `%q`. -/
def quoteGo (s : GoStr) : GoStr := '"' :: (s.map quoteChar).flatten ++ ['"']

/-- `Note.ToMarkdown`: the canonical serialization — marker line, the four
header fields in fixed order (`created`, `tags`, `summary`, `related`, with
empty sequences as `[]` and the summary always quoted), closing marker, then
the body byte for byte. -/
def ToMarkdown (n : Note) : GoStr :=
  gs "---\n"
    ++ gs "created: " ++ formatNoteTime n.frontmatter.created ++ gs "\n"
    ++ gs "tags: " ++ flowList n.frontmatter.tags ++ gs "\n"
    ++ gs "summary: " ++ quoteGo n.frontmatter.summary ++ gs "\n"
    ++ gs "related: " ++ flowList n.frontmatter.related ++ gs "\n"
    ++ gs "---\n"
    ++ n.content

/-- Split a string at every occurrence of a separator character; the
separators are consumed. -/
def splitOnChar (sep : Char) : GoStr → List GoStr
  | [] => [[]]
  | c :: rest =>
      match splitOnChar sep rest with
      | [] => [[c]]
      | l :: ls => if c = sep then [] :: l :: ls else (c :: l) :: ls

/-- Strip leading and trailing spaces from a scalar. -/
def trimSpaces (s : GoStr) : GoStr :=
  ((s.dropWhile (fun c => c = ' ')).reverse.dropWhile (fun c => c = ' ')).reverse

/-- Modelled from the spec: decoding of a YAML flow sequence (`[a, b]`) as the
external `yaml.v3` decoder reads the note header's `tags`/`related` values —
brackets around comma-separated scalars, surrounding spaces ignored, `[]`
empty.  Quoted elements and nested collections are not modelled. -/
def parseFlowList (v : GoStr) : Option (List GoStr) :=
  let v := trimSpaces v
  if startsWith v (gs "[") ∧ endsWith v (gs "]") ∧ 2 ≤ v.length then
    let inner := (v.drop 1).dropLast
    if trimSpaces inner = [] then some []
    else some ((splitOnChar ',' inner).map trimSpaces)
  else none

/-- One unescaped character of a double-quoted scalar. -/
def unescapeChar (c : Char) : Option Char :=
  if c = '"' then some '"'
  else if c = '\\' then some '\\'
  else if c = 'n' then some '\n'
  else if c = 't' then some '\t'
  else none

/-- The remainder of a double-quoted scalar after its opening quote: plain
characters up to a closing quote that must end the value, with
backslash escapes. -/
def unquoteBody : GoStr → Option GoStr
  | [] => none
  | c :: rest =>
      if c = '"' then (if rest = [] then some [] else none)
      else if c = '\\' then
        match rest with
        | [] => none
        | e :: rest2 => do
            let u ← unescapeChar e
            let r ← unquoteBody rest2
            return u :: r
      else do
        let r ← unquoteBody rest
        return c :: r

/-- Modelled from the spec: a `summary` scalar — double-quoted (as the
serializer always emits it) or a plain unquoted scalar. -/
def parseSummaryValue (v : GoStr) : Option GoStr :=
  match trimSpaces v with
  | [] => some []
  | c :: rest => if c = '"' then unquoteBody rest else some (c :: rest)

/-- Modelled from the spec: decoding of one header line into the typed
`Frontmatter` the external `yaml.v3` decoder produces.  A line is blank or
one of the four known fields (`created`, `tags`, `summary`, `related`);
anything else is malformed field syntax. -/
def parseHeaderLine (fm : Frontmatter) (l : GoStr) : Option Frontmatter :=
  if trimSpaces l = [] then some fm
  else if startsWith l (gs "created:") then
    (parseTimeValue (trimSpaces (l.drop 8))).map (fun t => { fm with created := t })
  else if startsWith l (gs "tags:") then
    (parseFlowList (l.drop 5)).map (fun ts => { fm with tags := ts })
  else if startsWith l (gs "summary:") then
    (parseSummaryValue (l.drop 8)).map (fun s => { fm with summary := s })
  else if startsWith l (gs "related:") then
    (parseFlowList (l.drop 8)).map (fun rs => { fm with related := rs })
  else none

/-- Modelled from the spec: `yaml.Unmarshal` of the header block into a
`Frontmatter`, as a line-by-line decode of the four-field
structured-scalar/flow-sequence subset the note format uses.  An empty block
decodes to the zero `Frontmatter`; an undecodable line is a failure. -/
def decodeFrontmatter (s : GoStr) : Option Frontmatter :=
  (splitOnChar '\n' s).foldlM parseHeaderLine Frontmatter.empty

/-- The failure of `ParseNoteContent`: a header block is present but its
structured content cannot be decoded (Go wraps the yaml error as
`invalid frontmatter`). -/
inductive ParseError where
  | invalidFrontmatter
deriving DecidableEq

/-- The closing-marker search of `ParseNoteContent` on the text after the
opening marker: the first `"\n---\n"`, or a terminal `"\n---"` at the end of
input (`idx = len(rest) - 4`), or nothing. -/
def closingIdx (rest : GoStr) : Option Nat :=
  match findSubstr (gs "\n---\n") rest with
  | some idx => some idx
  | none => if endsWith rest (gs "\n---") then some (rest.length - 4) else none

/-- `ParseNoteContent`: without a `"---\n"` at position 0, or without a
closing marker, the whole input is the body under an empty header; otherwise
the enclosed block is decoded, failing only if it is undecodable.  The body
is everything past the closing `"\n---\n"` (Go's three body assignments all
amount to dropping `idx + 5` characters: an out-of-range slice start can only
arise in the terminal-`"\n---"` case, where Go explicitly leaves the body
empty, and dropping past the end yields the same). -/
def ParseNoteContent (filename content : GoStr) : Except ParseError Note :=
  if startsWith content (gs "---\n") then
    let rest := content.drop 4
    match closingIdx rest with
    | none => .ok ⟨filename, Frontmatter.empty, content⟩
    | some idx =>
        let fmContent := rest.take idx
        let body := rest.drop (idx + 5)
        match decodeFrontmatter fmContent with
        | none => .error ParseError.invalidFrontmatter
        | some fm => .ok ⟨filename, fm, body⟩
  else .ok ⟨filename, Frontmatter.empty, content⟩

/-- UTF-8 encoding of one character: the bytes Go strings store. -/
def utf8Bytes (c : Char) : List Nat :=
  let n := c.toNat
  if n < 128 then [n]
  else if n < 2048 then [192 + n / 64, 128 + n % 64]
  else if n < 65536 then [224 + n / 4096, 128 + n / 64 % 64, 128 + n % 64]
  else [240 + n / 262144, 128 + n / 4096 % 64, 128 + n / 64 % 64, 128 + n % 64]

/-- The byte sequence of a Go string. -/
def strBytes (s : GoStr) : List Nat := (s.map utf8Bytes).flatten

/-- Truncation to a 32-bit word. -/
def w32 (n : Nat) : Nat := n % 4294967296

/-- Right rotation of a 32-bit word by `k`. -/
def rotr32 (k x : Nat) : Nat := w32 (x / 2 ^ k + x % 2 ^ k * 2 ^ (32 - k))

/-- Logical right shift. -/
def shr32 (k x : Nat) : Nat := x / 2 ^ k

/-- SHA-256 Σ₀. -/
def bigSigma0 (x : Nat) : Nat := rotr32 2 x ^^^ rotr32 13 x ^^^ rotr32 22 x

/-- SHA-256 Σ₁. -/
def bigSigma1 (x : Nat) : Nat := rotr32 6 x ^^^ rotr32 11 x ^^^ rotr32 25 x

/-- SHA-256 σ₀. -/
def smallSigma0 (x : Nat) : Nat := rotr32 7 x ^^^ rotr32 18 x ^^^ shr32 3 x

/-- SHA-256 σ₁. -/
def smallSigma1 (x : Nat) : Nat := rotr32 17 x ^^^ rotr32 19 x ^^^ shr32 10 x

/-- SHA-256 choice function (the complement of a 32-bit word is xor with
`2^32 - 1`). -/
def chFn (x y z : Nat) : Nat := (x &&& y) ^^^ ((x ^^^ 4294967295) &&& z)

/-- SHA-256 majority function. -/
def majFn (x y z : Nat) : Nat := (x &&& y) ^^^ (x &&& z) ^^^ (y &&& z)

/-- The eight 32-bit working variables of the SHA-256 compression. -/
structure Sha256State where
  a : Nat
  b : Nat
  c : Nat
  d : Nat
  e : Nat
  f : Nat
  g : Nat
  h : Nat
deriving DecidableEq

/-- The SHA-256 initial hash value. -/
def sha256Init : Sha256State :=
  ⟨1779033703, 3144134277, 1013904242, 2773480762,
   1359893119, 2600822924, 528734635, 1541459225⟩

/-- The SHA-256 round constants. -/
def sha256K : List Nat :=
  [1116352408, 1899447441, 3049323471, 3921009573, 961987163,
   1508970993, 2453635748, 2870763221, 3624381080, 310598401,
   607225278, 1426881987, 1925078388, 2162078206, 2614888103,
   3248222580, 3835390401, 4022224774, 264347078, 604807628,
   770255983, 1249150122, 1555081692, 1996064986, 2554220882,
   2821834349, 2952996808, 3210313671, 3336571891, 3584528711,
   113926993, 338241895, 666307205, 773529912, 1294757372,
   1396182291, 1695183700, 1986661051, 2177026350, 2456956037,
   2730485921, 2820302411, 3259730800, 3345764771, 3516065817,
   3600352804, 4094571909, 275423344, 430227734, 506948616,
   659060556, 883997877, 958139571, 1322822218, 1537002063,
   1747873779, 1955562222, 2024104815, 2227730452, 2361852424,
   2428436474, 2756734187, 3204031479, 3329325298]

/-- Group a byte list into big-endian 32-bit words. -/
def bytesToWords : List Nat → List Nat
  | b0 :: b1 :: b2 :: b3 :: rest => (((b0 * 256 + b1) * 256 + b2) * 256 + b3) :: bytesToWords rest
  | _ => []

/-- Extend the 16 message words by `rounds` further schedule words. -/
def buildSchedule (w : List Nat) : Nat → List Nat
  | 0 => w
  | r + 1 =>
      let t := w32 (smallSigma1 (w.getD (w.length - 2) 0) + w.getD (w.length - 7) 0
        + smallSigma0 (w.getD (w.length - 15) 0) + w.getD (w.length - 16) 0)
      buildSchedule (w ++ [t]) r

/-- The 64 SHA-256 rounds, consuming the constants and the schedule in
lockstep. -/
def compressLoop : List Nat → List Nat → Sha256State → Sha256State
  | k :: ks, w :: ws, s =>
      let t1 := w32 (s.h + bigSigma1 s.e + chFn s.e s.f s.g + k + w)
      let t2 := w32 (bigSigma0 s.a + majFn s.a s.b s.c)
      compressLoop ks ws ⟨w32 (t1 + t2), s.a, s.b, s.c, w32 (s.d + t1), s.e, s.f, s.g⟩
  | _, _, s => s

/-- Word-wise modular addition of two hash states. -/
def addState (x y : Sha256State) : Sha256State :=
  ⟨w32 (x.a + y.a), w32 (x.b + y.b), w32 (x.c + y.c), w32 (x.d + y.d),
   w32 (x.e + y.e), w32 (x.f + y.f), w32 (x.g + y.g), w32 (x.h + y.h)⟩

/-- One 64-byte block of the SHA-256 outer loop. -/
def processBlock (s : Sha256State) (block : List Nat) : Sha256State :=
  addState s (compressLoop sha256K (buildSchedule (bytesToWords block) 48) s)

/-- Split a nonempty byte list into 64-byte chunks, structurally recursive on
a fuel bound (each step consumes at least one byte, so any fuel at least the
length of the list gives the full chunking). -/
def chunksGo : Nat → List Nat → List (List Nat)
  | 0, _ => []
  | _ + 1, [] => []
  | fuel + 1, c :: cs => (c :: cs).take 64 :: chunksGo fuel ((c :: cs).drop 64)

/-- Split a byte list into 64-byte chunks. -/
def chunks64 (l : List Nat) : List (List Nat) := chunksGo l.length l

/-- A value as 8 big-endian bytes (the SHA-256 length field). -/
def be8 (n : Nat) : List Nat :=
  [n / 72057594037927936 % 256, n / 281474976710656 % 256, n / 1099511627776 % 256,
   n / 4294967296 % 256, n / 16777216 % 256, n / 65536 % 256, n / 256 % 256, n % 256]

/-- A 32-bit word as 4 big-endian bytes. -/
def wordBE4 (n : Nat) : List Nat := [n / 16777216 % 256, n / 65536 % 256, n / 256 % 256, n % 256]

/-- SHA-256 padding: a `0x80` byte, zeros to 56 mod 64, then the bit length
as 8 big-endian bytes. -/
def sha256Pad (msg : List Nat) : List Nat :=
  msg ++ [128] ++ List.replicate ((119 - msg.length % 64) % 64) 0 ++ be8 (8 * msg.length)

/-- `crypto/sha256.Sum256`: the 32 digest bytes of a byte sequence. -/
def sha256 (msg : List Nat) : List Nat :=
  let s := (chunks64 (sha256Pad msg)).foldl processBlock sha256Init
  wordBE4 s.a ++ wordBE4 s.b ++ wordBE4 s.c ++ wordBE4 s.d
    ++ wordBE4 s.e ++ wordBE4 s.f ++ wordBE4 s.g ++ wordBE4 s.h

/-- One byte as two lowercase hex characters. -/
def hexByte (b : Nat) : GoStr := [Nat.digitChar (b / 16 % 16), Nat.digitChar (b % 16)]

/-- `hex.EncodeToString`: lowercase hex of a byte sequence. -/
def hexEncode (bs : List Nat) : GoStr := (bs.map hexByte).flatten

/-- `Note.ContentHash`: the first 12 hex characters of the SHA-256 of the
note's body content, computed over the body only. -/
def ContentHash (n : Note) : GoStr := (hexEncode (sha256 (strBytes n.content))).take 12

/-- Modelled from the spec: `path/filepath.Base`, restricted to the paths the
index handles — the final slash-separated component of a path without a
trailing slash (note identifiers are plain filenames, so this agrees with Go
on every input the code passes it). -/
def baseName (p : GoStr) : GoStr :=
  p.foldl (fun acc c => if c = '/' then [] else acc ++ [c]) []

/-- `MetaFile.UpdateFromNote`: refreshes (or creates, starting from the zero
`FileMeta`) the entry of the note's base filename with the note's current
hash, tags, summary and relations.  `EnrichedAt` is not assigned. -/
def MetaFile.UpdateFromNote (m : MetaFile) (note : Note) : MetaFile :=
  let filename := baseName note.filename
  let meta := (m.files filename).getD FileMeta.zero
  m.setFile filename
    { meta with
      contentHash := ContentHash note
      tags := note.frontmatter.tags
      summary := note.frontmatter.summary
      related := note.frontmatter.related }

/-- `MetaFile.UpdateFromNoteWithEnrichment`: `UpdateFromNote`, then stamp the
current time (passed in for the impure `time.Now()`) into the entry's
`EnrichedAt`. -/
def MetaFile.UpdateFromNoteWithEnrichment (m : MetaFile) (note : Note) (now : Nat) : MetaFile :=
  let m1 := m.UpdateFromNote note
  let filename := baseName note.filename
  match m1.files filename with
  | some meta => m1.setFile filename { meta with enrichedAt := some now }
  | none => m1

/-- A summary character that `%q` passes through unescaped: printable ASCII
other than the quote and the backslash. -/
def plainChar (c : Char) : Bool :=
  32 ≤ c.toNat && c.toNat ≤ 126 && c ≠ '"' && c ≠ '\\'

/-- A tag or related-list element that the flow-sequence syntax carries
losslessly: nonempty, without commas or line breaks, and not beginning or
ending with a space. -/
def goodElem (t : GoStr) : Bool :=
  !t.isEmpty && t.all (fun c => c ≠ ',' && c ≠ '\n')
    && t.head? ≠ some ' ' && t.getLast? ≠ some ' '

/-- A header whose serialization is lossless: the claim's "header serializes
without error" — a calendar-valid four-digit creation time, flow-safe tag and
related elements, and a printable single-line summary. -/
def wellFormedFm (fm : Frontmatter) : Bool :=
  fm.created.valid && fm.created.year ≤ 9999 && fm.tags.all goodElem
    && fm.related.all goodElem && fm.summary.all plainChar

mutual

/-- All identifiers appearing in a neighborhood tree, in preorder. -/
def GraphNode.ids : GraphNode → List GoStr
  | .node f _ ch => f :: GraphNode.idsList ch

/-- All identifiers appearing in a forest, in preorder. -/
def GraphNode.idsList : List GraphNode → List GoStr
  | [] => []
  | n :: ns => GraphNode.ids n ++ GraphNode.idsList ns

end

/-- An index fixture built from an association list. -/
def mkIndex (l : List (GoStr × FileMeta)) : MetaFile :=
  ⟨fun k => (l.find? (fun p => decide (p.1 = k))).map Prod.snd⟩

/-- An entry fixture holding only relations. -/
def relEntry (rel : List GoStr) : FileMeta := ⟨[], none, [], [], rel⟩

/-- The spec's example graph: `A: related=[B]`, `B: related=[A,C]`,
`C: related=[B]`. -/
def exGraphIndex : MetaFile :=
  mkIndex [(gs "a.md", relEntry [gs "b.md"]),
           (gs "b.md", relEntry [gs "a.md", gs "c.md"]),
           (gs "c.md", relEntry [gs "b.md"])]

/-- A 3-node mutual-relation cycle. -/
def exRingIndex : MetaFile :=
  mkIndex [(gs "a.md", relEntry [gs "b.md", gs "c.md"]),
           (gs "b.md", relEntry [gs "a.md", gs "c.md"]),
           (gs "c.md", relEntry [gs "b.md", gs "a.md"])]

/-- The spec's staleness example: one entry with stored hash
`aaaa1111bbbb`. -/
def exStoreIndex : MetaFile :=
  mkIndex [(gs "note1.md", ⟨gs "aaaa1111bbbb", none, [], [], []⟩)]

/-- Two unrelated entries, for exercising relation mutation. -/
def exPairIndex : MetaFile :=
  mkIndex [(gs "a.md", relEntry []), (gs "b.md", relEntry [])]

/-- A summary lookup fixture that returns the empty string. -/
def noSummaries : GoStr → GoStr := fun _ => []

/-- The empty index. -/
def emptyIndex : MetaFile := ⟨fun _ => none⟩

/-- A typical well-formed note. -/
def exNote : Note :=
  ⟨gs "test.md",
   ⟨⟨2025, 1, 11, 14, 23⟩, [gs "neo", gs "eval"], gs "Test summary", [gs "other.md"]⟩,
   gs "\nBody content here.\n"⟩

/-- The serialized header block between the two marker lines, as `ToMarkdown`
lays it out: the four field lines separated by line breaks, without the final
line break (which `ParseNoteContent` treats as the start of the closing
marker). -/
def fmBlock (fm : Frontmatter) : GoStr :=
  (gs "created: " ++ formatNoteTime fm.created) ++ '\n' ::
  ((gs "tags: " ++ flowList fm.tags) ++ '\n' ::
  ((gs "summary: " ++ quoteGo fm.summary) ++ '\n' ::
  (gs "related: " ++ flowList fm.related)))

/-- `Contains` answers list membership. -/
lemma contains_iff (l : List GoStr) (x : GoStr) : Contains l x = true ↔ x ∈ l := by
  induction l with
  | nil => simp [Contains]
  | cons a l ih =>
      by_cases hax : a = x
      · subst hax
        simp [Contains]
      · simp only [Contains, if_neg hax, ih, List.mem_cons]
        constructor
        · exact Or.inr
        · rintro (rfl | h)
          · exact absurd rfl hax
          · exact h

/-- `RemoveString` keeps exactly the other elements. -/
lemma mem_removeString (l : List GoStr) (x y : GoStr) :
    y ∈ RemoveString l x ↔ y ∈ l ∧ y ≠ x := by
  induction l with
  | nil => simp [RemoveString]
  | cons a l ih =>
      by_cases hax : a = x
      · subst hax
        simp only [RemoveString, ne_eq, not_true_eq_false, if_false, ih, List.mem_cons]
        tauto
      · simp [RemoveString, hax, ih]
        constructor
        · rintro (rfl | hy)
          · exact ⟨Or.inl rfl, fun hc => hax (hc ▸ rfl)⟩
          · exact ⟨Or.inr hy.1, hy.2⟩
        · rintro ⟨rfl | hy, hne⟩
          · exact Or.inl rfl
          · exact Or.inr ⟨hy, hne⟩

/-- Removing an absent element is the identity. -/
lemma removeString_of_not_mem (l : List GoStr) (x : GoStr) (h : x ∉ l) :
    RemoveString l x = l := by
  induction l with
  | nil => rfl
  | cons a l ih =>
      simp only [List.mem_cons, not_or] at h
      have hne : a ≠ x := fun hc => h.1 hc.symm
      simp [RemoveString, hne, ih h.2]

/-- A map update hits the written key. -/
lemma files_setFile_same (m : MetaFile) (k : GoStr) (v : FileMeta) :
    (m.setFile k v).files k = some v := by simp [MetaFile.setFile]

/-- A map update leaves other keys alone. -/
lemma files_setFile_other (m : MetaFile) (k k' : GoStr) (v : FileMeta) (h : k' ≠ k) :
    (m.setFile k v).files k' = m.files k' := by simp [MetaFile.setFile, h]

/-- Two indexes with the same entries are equal. -/
lemma MetaFile.eq_of_files {m1 m2 : MetaFile} (h : ∀ k, m1.files k = m2.files k) : m1 = m2 := by
  cases m1
  cases m2
  simp only [MetaFile.mk.injEq]
  funext k
  exact h k

/-- C2: `needs_enrichment(id, fp)` is true exactly when the identifier has no
index entry or the stored fingerprint differs from `fp`; whenever an entry
exists whose stored fingerprint equals `fp` it is false, regardless of the
entry's tags, summary, related list, or enrichment timestamp. -/
theorem C2_needs_enrichment (m : MetaFile) (idf fp : GoStr) :
    (m.NeedsEnrichment idf fp = true ↔
      m.files idf = none ∨ ∃ e, m.files idf = some e ∧ e.contentHash ≠ fp)
    ∧ (∀ e, m.files idf = some e → e.contentHash = fp →
        m.NeedsEnrichment idf fp = false) := by
  rcases hm : m.files idf with _ | e
  · constructor
    · simp [MetaFile.NeedsEnrichment, hm]
    · intro e he
      cases he
  · constructor
    · simp [MetaFile.NeedsEnrichment, hm]
    · intro e' he' hfp
      cases he'
      simp [MetaFile.NeedsEnrichment, hm, hfp]

/-- C2 witness: the spec's example — a stored hash `aaaa1111bbbb` matching the
current fingerprint needs no enrichment. -/
theorem C2_needs_enrichment_witness :
    exStoreIndex.NeedsEnrichment (gs "note1.md") (gs "aaaa1111bbbb") = false :=
  (C2_needs_enrichment exStoreIndex (gs "note1.md") (gs "aaaa1111bbbb")).2
    ⟨gs "aaaa1111bbbb", none, [], [], []⟩ (by decide) (by decide)

/-- C9: reconcile removes exactly the entries whose identifier is absent from
the current-identifier set, and returns every other entry unchanged. -/
theorem C9_reconcile_exact (m : MetaFile) (current : List GoStr) (idf : GoStr) :
    (idf ∉ current → (m.reconcile current).files idf = none)
    ∧ (idf ∈ current → (m.reconcile current).files idf = m.files idf) := by
  constructor
  · intro h
    rcases hm : m.files idf with _ | e <;> simp [MetaFile.reconcile, hm, h]
  · intro h
    rcases hm : m.files idf with _ | e <;> simp [MetaFile.reconcile, hm, h]

/-- C9 witness: with only `a.md` still on disk, reconciling the two-entry
index drops `b.md` and leaves `a.md` untouched. -/
theorem C9_reconcile_exact_witness :
    (exPairIndex.reconcile [gs "a.md"]).files (gs "b.md") = none
    ∧ (exPairIndex.reconcile [gs "a.md"]).files (gs "a.md") = exPairIndex.files (gs "a.md") :=
  ⟨(C9_reconcile_exact exPairIndex [gs "a.md"] (gs "b.md")).1 (by decide),
   (C9_reconcile_exact exPairIndex [gs "a.md"] (gs "a.md")).2 (by decide)⟩

lemma setFile_self (m : MetaFile) (k : GoStr) (e : FileMeta) (h : m.files k = some e) :
    m.setFile k e = m := by
  apply MetaFile.eq_of_files
  intro k'
  by_cases hk : k' = k <;> simp [MetaFile.setFile, hk, h]

lemma addSide_none {m : MetaFile} {x y : GoStr} (h : m.files x = none) :
    addRelationSide m x y = m := by
  simp [addRelationSide, h]

lemma addSide_files_self {m : MetaFile} {x y : GoStr} {e : FileMeta} (h : m.files x = some e) :
    (addRelationSide m x y).files x =
      some (if Contains e.related y then e else { e with related := e.related ++ [y] }) := by
  by_cases hc : Contains e.related y <;>
    simp [addRelationSide, h, hc, files_setFile_same]

lemma addSide_files_other {m : MetaFile} {x y k : GoStr} (hk : k ≠ x) :
    (addRelationSide m x y).files k = m.files k := by
  rcases h : m.files x with _ | e
  · simp [addRelationSide, h]
  · by_cases hc : Contains e.related y <;>
      simp [addRelationSide, h, hc, files_setFile_other _ _ _ _ hk]

lemma addSide_mem {m : MetaFile} {x y : GoStr} {e : FileMeta} (h : m.files x = some e) :
    ∃ e', (addRelationSide m x y).files x = some e' ∧ y ∈ e'.related := by
  refine ⟨_, addSide_files_self h, ?_⟩
  by_cases hc : Contains e.related y
  · simpa [hc] using (contains_iff _ _).mp hc
  · simp [hc]

lemma addSide_of_mem {m : MetaFile} {x y : GoStr} {e : FileMeta} (h : m.files x = some e)
    (hy : y ∈ e.related) : addRelationSide m x y = m := by
  simp [addRelationSide, h, (contains_iff _ _).mpr hy]

lemma addSide_isSome {m : MetaFile} {x y k : GoStr} :
    ((addRelationSide m x y).files k).isSome = (m.files k).isSome := by
  by_cases hk : k = x
  · subst hk
    rcases h : m.files k with _ | e
    · simp [addSide_none h, h]
    · simp [addSide_files_self h, h]
  · simp [addSide_files_other hk]

lemma removeSide_none {m : MetaFile} {x y : GoStr} (h : m.files x = none) :
    removeRelationSide m x y = m := by
  simp [removeRelationSide, h]

lemma removeSide_files_self {m : MetaFile} {x y : GoStr} {e : FileMeta} (h : m.files x = some e) :
    (removeRelationSide m x y).files x = some { e with related := RemoveString e.related y } := by
  simp [removeRelationSide, h, files_setFile_same]

lemma removeSide_files_other {m : MetaFile} {x y k : GoStr} (hk : k ≠ x) :
    (removeRelationSide m x y).files k = m.files k := by
  rcases h : m.files x with _ | e
  · simp [removeRelationSide, h]
  · simp [removeRelationSide, h, files_setFile_other _ _ _ _ hk]

lemma removeSide_of_not_mem {m : MetaFile} {x y : GoStr} (h : ∀ e, m.files x = some e → y ∉ e.related) :
    removeRelationSide m x y = m := by
  rcases hx : m.files x with _ | e
  · exact removeSide_none hx
  · have : RemoveString e.related y = e.related := removeString_of_not_mem _ _ (h e hx)
    simp only [removeRelationSide, hx, this]
    exact setFile_self m x e hx


lemma addRelation_mem_left {m : MetaFile} {a b : GoStr} :
    ∀ e, (m.AddRelation a b).files a = some e → b ∈ e.related := by
  intro e he
  rw [MetaFile.AddRelation] at he
  by_cases hab : a = b
  · subst hab
    rcases h1 : (addRelationSide m a a).files a with _ | e1
    · rw [addSide_none h1, h1] at he
      cases he
    · obtain ⟨e2, he2, hm2⟩ := addSide_mem (y := a) h1
      rw [he] at he2
      injection he2 with he2
      subst he2
      exact hm2
  · rw [addSide_files_other hab] at he
    rcases ha : m.files a with _ | ea
    · rw [addSide_none ha, ha] at he
      cases he
    · obtain ⟨e1, he1, hm1⟩ := addSide_mem (y := b) ha
      rw [he] at he1
      injection he1 with he1
      subst he1
      exact hm1

lemma addRelation_mem_right {m : MetaFile} {a b : GoStr} :
    ∀ e, (m.AddRelation a b).files b = some e → a ∈ e.related := by
  intro e he
  rw [MetaFile.AddRelation] at he
  rcases h1 : (addRelationSide m a b).files b with _ | e1
  · rw [addSide_none h1, h1] at he
    cases he
  · obtain ⟨e2, he2, hm2⟩ := addSide_mem (y := a) h1
    rw [he] at he2
    injection he2 with he2
    subst he2
    exact hm2

/-- C4: relation mutation symmetry — when both entries exist, `add_relation`
puts each identifier in the other's relation list; repeating an add changes
nothing (no duplicates); after `remove_relation` neither identifier is in the
other's list; removing an absent edge is a no-op; and a side with no index
entry is skipped by add. -/
theorem C4_relation_symmetry (m : MetaFile) (a b : GoStr) :
    ((m.files a).isSome = true → (m.files b).isSome = true →
      (∀ ea, (m.AddRelation a b).files a = some ea → b ∈ ea.related)
      ∧ (∀ eb, (m.AddRelation a b).files b = some eb → a ∈ eb.related))
    ∧ ((m.AddRelation a b).AddRelation a b = m.AddRelation a b)
    ∧ ((∀ ea, (m.RemoveRelation a b).files a = some ea → b ∉ ea.related)
       ∧ (∀ eb, (m.RemoveRelation a b).files b = some eb → a ∉ eb.related))
    ∧ ((∀ ea, m.files a = some ea → b ∉ ea.related) →
       (∀ eb, m.files b = some eb → a ∉ eb.related) →
       m.RemoveRelation a b = m)
    ∧ ((m.files a = none → (m.AddRelation a b).files a = none)
       ∧ (m.files b = none → (m.AddRelation a b).files b = none)) := by
  refine ⟨?_, ?_, ⟨?_, ?_⟩, ?_, ?_, ?_⟩
  -- symmetry when both entries exist
  · intro _ _
    exact ⟨fun ea hea => addRelation_mem_left ea hea,
           fun eb heb => addRelation_mem_right eb heb⟩
  -- repeated add is a no-op
  · have step1 : addRelationSide (m.AddRelation a b) a b = m.AddRelation a b := by
      rcases hMa : (m.AddRelation a b).files a with _ | e
      · exact addSide_none hMa
      · exact addSide_of_mem hMa (addRelation_mem_left e hMa)
    have step2 : addRelationSide (m.AddRelation a b) b a = m.AddRelation a b := by
      rcases hMb : (m.AddRelation a b).files b with _ | e
      · exact addSide_none hMb
      · exact addSide_of_mem hMb (addRelation_mem_right e hMb)
    show addRelationSide (addRelationSide (m.AddRelation a b) a b) b a = m.AddRelation a b
    rw [step1, step2]
  -- after remove, the edge is gone on a's side
  · intro ea hea
    rw [MetaFile.RemoveRelation] at hea
    by_cases hab : a = b
    · subst hab
      rcases h1 : (removeRelationSide m a a).files a with _ | e1
      · rw [removeSide_none h1, h1] at hea
        cases hea
      · rw [removeSide_files_self h1] at hea
        injection hea with hea
        subst hea
        simp [mem_removeString]
    · rw [removeSide_files_other hab] at hea
      rcases ha : m.files a with _ | ea0
      · rw [removeSide_none ha, ha] at hea
        cases hea
      · rw [removeSide_files_self ha] at hea
        injection hea with hea
        subst hea
        simp [mem_removeString]
  -- after remove, the edge is gone on b's side
  · intro eb heb
    rw [MetaFile.RemoveRelation] at heb
    rcases h1 : (removeRelationSide m a b).files b with _ | e1
    · rw [removeSide_none h1, h1] at heb
      cases heb
    · rw [removeSide_files_self h1] at heb
      injection heb with heb
      subst heb
      simp [mem_removeString]
  -- remove is a no-op when the edge is absent
  · intro hA hB
    rw [MetaFile.RemoveRelation, removeSide_of_not_mem hA, removeSide_of_not_mem hB]
  -- a missing a-side entry is skipped
  · intro ha
    rw [MetaFile.AddRelation, addSide_none ha]
    by_cases hab : a = b
    · subst hab
      rw [addSide_none ha]
      exact ha
    · rw [addSide_files_other hab]
      exact ha
  -- a missing b-side entry is skipped
  · intro hb
    rw [MetaFile.AddRelation]
    by_cases hab : b = a
    · subst hab
      rw [addSide_none hb, addSide_none hb]
      exact hb
    · have h1 : (addRelationSide m a b).files b = none := by
        rw [addSide_files_other hab]
        exact hb
      rw [addSide_none h1]
      exact h1

/-- C10: `add_relation(a, a)` on an existing entry leaves `a` exactly once in
its own relation list — appended when absent (the symmetric second insertion
is suppressed because the second block sees the first block's update), left
alone when present — and no other entry of the index changes. -/
theorem C10_self_relation (m : MetaFile) (a : GoStr) (e : FileMeta)
    (he : m.files a = some e) :
    (a ∉ e.related →
       (m.AddRelation a a).files a = some { e with related := e.related ++ [a] }
       ∧ ∀ e', (m.AddRelation a a).files a = some e' → e'.related.count a = 1)
    ∧ (a ∈ e.related → m.AddRelation a a = m)
    ∧ (∀ k, k ≠ a → (m.AddRelation a a).files k = m.files k) := by
  refine ⟨?_, ?_, ?_⟩
  · intro hno
    have hc : Contains e.related a = false := by
      rw [← Bool.not_eq_true]
      exact fun h => hno ((contains_iff _ _).mp h)
    have h1f : (addRelationSide m a a).files a = some { e with related := e.related ++ [a] } := by
      simp [addRelationSide, he, hc, files_setFile_same]
    have hmem : a ∈ ({ e with related := e.related ++ [a] } : FileMeta).related := by simp
    have hfin : (m.AddRelation a a).files a = some { e with related := e.related ++ [a] } := by
      rw [MetaFile.AddRelation, addSide_of_mem h1f hmem]
      exact h1f
    refine ⟨hfin, ?_⟩
    intro e' he'
    rw [hfin] at he'
    injection he' with he'
    subst he'
    simp [List.count_append, List.count_eq_zero.mpr hno]
  · intro hyes
    have h1 : addRelationSide m a a = m := addSide_of_mem he hyes
    rw [MetaFile.AddRelation, h1, h1]
  · intro k hk
    rw [MetaFile.AddRelation, addSide_files_other hk, addSide_files_other hk]

/-- C8: `update_from_record` rewrites the entry's fingerprint, tags, summary
and related list from the note while leaving `enriched_at` exactly as it was
(absent for a fresh entry, the prior value otherwise); only the
`mark_enriched` variant additionally stamps the supplied current time.  No
other entry is touched. -/
theorem C8_update_frame (m : MetaFile) (note : Note) (now : Nat) :
    (∀ e0, m.files (baseName note.filename) = some e0 →
       (m.UpdateFromNote note).files (baseName note.filename) =
         some ⟨ContentHash note, e0.enrichedAt, note.frontmatter.tags,
               note.frontmatter.summary, note.frontmatter.related⟩)
    ∧ (m.files (baseName note.filename) = none →
       (m.UpdateFromNote note).files (baseName note.filename) =
         some ⟨ContentHash note, none, note.frontmatter.tags,
               note.frontmatter.summary, note.frontmatter.related⟩)
    ∧ ((m.UpdateFromNoteWithEnrichment note now).files (baseName note.filename) =
         some ⟨ContentHash note, some now, note.frontmatter.tags,
               note.frontmatter.summary, note.frontmatter.related⟩)
    ∧ (∀ k, k ≠ baseName note.filename →
         (m.UpdateFromNote note).files k = m.files k
         ∧ (m.UpdateFromNoteWithEnrichment note now).files k = m.files k) := by
  have hupd : ∀ e0, m.files (baseName note.filename) = some e0 →
      (m.UpdateFromNote note).files (baseName note.filename) =
        some ⟨ContentHash note, e0.enrichedAt, note.frontmatter.tags,
              note.frontmatter.summary, note.frontmatter.related⟩ := by
    intro e0 h0
    obtain ⟨ch, en, tg, su, re⟩ := e0
    simp [MetaFile.UpdateFromNote, h0, files_setFile_same]
  have hnew : m.files (baseName note.filename) = none →
      (m.UpdateFromNote note).files (baseName note.filename) =
        some ⟨ContentHash note, none, note.frontmatter.tags,
              note.frontmatter.summary, note.frontmatter.related⟩ := by
    intro h0
    simp [MetaFile.UpdateFromNote, h0, files_setFile_same, FileMeta.zero]
  have hsome : ∀ v, (m.UpdateFromNote note).files (baseName note.filename) = some v →
      (m.UpdateFromNoteWithEnrichment note now).files (baseName note.filename) =
        some { v with enrichedAt := some now } := by
    intro v hv
    simp [MetaFile.UpdateFromNoteWithEnrichment, hv, files_setFile_same]
  refine ⟨hupd, hnew, ?_, ?_⟩
  · rcases h0 : m.files (baseName note.filename) with _ | e0
    · exact hsome _ (hnew h0)
    · exact hsome _ (hupd e0 h0)
  · intro k hk
    have hu : (m.UpdateFromNote note).files k = m.files k := by
      rcases h0 : m.files (baseName note.filename) with _ | e0 <;>
        simp [MetaFile.UpdateFromNote, h0, files_setFile_other _ _ _ _ hk]
    refine ⟨hu, ?_⟩
    rcases h0 : m.files (baseName note.filename) with _ | e0
    · have h1 := hnew h0
      simp [MetaFile.UpdateFromNoteWithEnrichment, h1, files_setFile_other _ _ _ _ hk, hu]
    · have h1 := hupd e0 h0
      simp [MetaFile.UpdateFromNoteWithEnrichment, h1, files_setFile_other _ _ _ _ hk, hu]

/-- C4 witness: adding the `a.md`–`b.md` edge on the two-entry index puts
`b.md` into `a.md`'s relation list. -/
theorem C4_relation_symmetry_witness : gs "b.md" ∈ (relEntry [gs "b.md"]).related :=
  ((C4_relation_symmetry exPairIndex (gs "a.md") (gs "b.md")).1 (by decide) (by decide)).1
    (relEntry [gs "b.md"]) (by decide)

/-- C10 witness: a self-relation added to an entry with no relations appears
exactly once. -/
theorem C10_self_relation_witness : (relEntry [gs "a.md"]).related.count (gs "a.md") = 1 :=
  ((C10_self_relation exPairIndex (gs "a.md") (relEntry []) (by decide)).1 (by decide)).2
    (relEntry [gs "a.md"]) (by decide)

/-- C8 witness: updating an empty index from a note creates the entry with
the note's fields and no enrichment timestamp. -/
theorem C8_update_frame_witness :
    (emptyIndex.UpdateFromNote exNote).files (baseName exNote.filename) =
      some ⟨ContentHash exNote, none, exNote.frontmatter.tags,
            exNote.frontmatter.summary, exNote.frontmatter.related⟩ :=
  (C8_update_frame emptyIndex exNote 0).2.1 rfl

/-- A visited identifier is returned as a leaf, with the state unchanged. -/
lemma buildGraph_visited_mem {meta : MetaFile} {summaries : GoStr → GoStr} {f : GoStr}
    {d : Int} {visited : List GoStr} (h : f ∈ visited) :
    buildGraph meta summaries f d visited = (.node f (summaries f) [], visited) := by
  rw [buildGraph]
  rw [if_pos (Or.inr h)]

/-- With no remaining depth the traversal returns a bare leaf. -/
lemma buildGraph_depth_le_zero {meta : MetaFile} {summaries : GoStr → GoStr} {f : GoStr}
    {d : Int} {visited : List GoStr} (h : d ≤ 0) :
    buildGraph meta summaries f d visited = (.node f (summaries f) [], visited) := by
  rw [buildGraph]
  rw [if_pos (Or.inl h)]

/-- The child loop preserves growth and duplicate-freedom of the visited set,
given that each single expansion at the same depth does. -/
lemma buildGraphList_step (meta : MetaFile) (summaries : GoStr → GoStr) (d : Int)
    (hnode : ∀ (f : GoStr) (visited : List GoStr),
      visited ⊆ (buildGraph meta summaries f d visited).2
      ∧ (visited.Nodup → (buildGraph meta summaries f d visited).2.Nodup)) :
    ∀ (rels : List GoStr) (visited : List GoStr),
      visited ⊆ (buildGraphList meta summaries rels d visited).2
      ∧ (visited.Nodup → (buildGraphList meta summaries rels d visited).2.Nodup) := by
  intro rels
  induction rels with
  | nil =>
      intro visited
      rw [buildGraphList]
      exact ⟨List.Subset.refl _, fun h => h⟩
  | cons rel rest ih =>
      intro visited
      rw [buildGraphList]
      obtain ⟨hsub1, hnd1⟩ := hnode rel visited
      obtain ⟨hsub2, hnd2⟩ := ih (buildGraph meta summaries rel d visited).2
      exact ⟨hsub1.trans hsub2, fun hnd => hnd2 (hnd1 hnd)⟩

/-- By induction on the depth bound: the visited set only grows, and stays
duplicate-free, across any expansion. -/
lemma buildGraph_measure (meta : MetaFile) (summaries : GoStr → GoStr) :
    ∀ (n : Nat) (d : Int), d.toNat ≤ n → ∀ (f : GoStr) (visited : List GoStr),
      visited ⊆ (buildGraph meta summaries f d visited).2
      ∧ (visited.Nodup → (buildGraph meta summaries f d visited).2.Nodup) := by
  intro n
  induction n with
  | zero =>
      intro d hd f visited
      have hd0 : d ≤ 0 := by omega
      rw [buildGraph_depth_le_zero hd0]
      exact ⟨List.Subset.refl _, fun h => h⟩
  | succ n ih =>
      intro d hd f visited
      by_cases hguard : d ≤ 0 ∨ f ∈ visited
      · rcases hguard with h0 | hf
        · rw [buildGraph_depth_le_zero h0]
          exact ⟨List.Subset.refl _, fun h => h⟩
        · rw [buildGraph_visited_mem hf]
          exact ⟨List.Subset.refl _, fun h => h⟩
      · push_neg at hguard
        obtain ⟨hd0, hf⟩ := hguard
        have hvs : visited ⊆ f :: visited := List.subset_cons_self _ _
        have hnd3 : visited.Nodup → (f :: visited).Nodup := fun h => List.nodup_cons.mpr ⟨hf, h⟩
        have hd1 : (d - 1).toNat ≤ n := by omega
        have hlist := buildGraphList_step meta summaries (d - 1) (ih (d - 1) hd1)
        rw [buildGraph]
        rw [if_neg (by push_neg; exact ⟨hd0, hf⟩)]
        rcases hm : meta.files f with _ | fm
        · simp only
          exact ⟨hvs, hnd3⟩
        · simp only
          obtain ⟨hsub, hnd⟩ := hlist fm.related (f :: visited)
          exact ⟨hvs.trans hsub, fun h => hnd (hnd3 h)⟩

/-- C6: an identifier already in the visited set is never expanded again (the
call returns a bare leaf and leaves the state untouched); with a duplicate-free
visited set the traversal's visited set stays duplicate-free, so no identifier
is expanded more than once in a traversal; and on a 3-node mutual-relation
cycle at depth 5 the (total, hence terminating) traversal expands exactly the
three identifiers, its tree mentioning exactly three distinct ones. -/
theorem C6_cycle_termination (meta : MetaFile) (summaries : GoStr → GoStr) (f : GoStr)
    (d : Int) (visited : List GoStr) :
    (f ∈ visited → buildGraph meta summaries f d visited = (.node f (summaries f) [], visited))
    ∧ (visited.Nodup → (buildGraph meta summaries f d visited).2.Nodup)
    ∧ ((buildGraph exRingIndex noSummaries (gs "a.md") 5 []).2
         = [gs "c.md", gs "b.md", gs "a.md"]
       ∧ (showNeighborhoodJSON exRingIndex noSummaries (gs "a.md") 5).ids.dedup.length = 3) := by
  refine ⟨fun h => buildGraph_visited_mem h,
          fun h => (buildGraph_measure meta summaries d.toNat d le_rfl f visited).2 h,
          ?_, ?_⟩
  · simp [buildGraph, buildGraphList, exRingIndex, mkIndex, relEntry, noSummaries, gs]
  · simp [showNeighborhoodJSON, buildGraph, buildGraphList, exRingIndex, mkIndex, relEntry,
          noSummaries, gs, GraphNode.ids, GraphNode.idsList]

/-- C6 witness: a root already in the visited set is returned as a bare leaf
without expansion. -/
theorem C6_cycle_termination_witness :
    buildGraph exRingIndex noSummaries (gs "a.md") 1 [gs "a.md"]
      = (.node (gs "a.md") (noSummaries (gs "a.md")) [], [gs "a.md"]) :=
  (C6_cycle_termination exRingIndex noSummaries (gs "a.md") 1 [gs "a.md"]).1 (by decide)

/-- C7 counterexample: in the text rendering, depth 0 does not yield only the
root — on the graph `A:[B]`, `B:[A,C]`, `C:[B]`, `neighborhood(a.md, 0)`
prints the direct child `b.md` under the root, because `printTree` prints
every entry of the relation list before checking the (already negative)
remaining depth. -/
theorem C7_depth0_counterexample :
    showNeighborhoodText exGraphIndex noSummaries (gs "a.md") 0 ≠
      GraphNode.node (gs "a.md") (noSummaries (gs "a.md")) [] := by
  have h : showNeighborhoodText exGraphIndex noSummaries (gs "a.md") 0 =
      .node (gs "a.md") [] [.node (gs "b.md") [] []] := by
    simp [showNeighborhoodText, printTree, exGraphIndex, mkIndex, relEntry, noSummaries, gs]
  rw [h]
  intro hc
  injection hc with h1 h2 h3
  cases h3

/-- C7 as amended: in the JSON rendering, depth at most 0 yields only the root
with no children; the text rendering at depth 0 additionally lists the root's
direct related entries unexpanded; and depth N expands N hops, one unit per
hop: on `A:[B]`, `B:[A,C]`, `C:[B]`, text `neighborhood(A,1)` is root `A`
with single child `B` (`C` unreached), text `neighborhood(A,2)` is
`A → B → C` with `C` not re-expanded back to `B`, and JSON depth 0 and 1
give `A` alone and `A → B`. -/
theorem C7_depth_semantics :
    (∀ (meta : MetaFile) (summaries : GoStr → GoStr) (f : GoStr) (visited : List GoStr)
       (d : Int), d ≤ 0 →
        buildGraph meta summaries f d visited = (.node f (summaries f) [], visited))
    ∧ showNeighborhoodText exGraphIndex noSummaries (gs "a.md") 0 =
        .node (gs "a.md") [] [.node (gs "b.md") [] []]
    ∧ showNeighborhoodText exGraphIndex noSummaries (gs "a.md") 1 =
        .node (gs "a.md") [] [.node (gs "b.md") [] []]
    ∧ showNeighborhoodText exGraphIndex noSummaries (gs "a.md") 2 =
        .node (gs "a.md") [] [.node (gs "b.md") [] [.node (gs "c.md") [] []]]
    ∧ showNeighborhoodJSON exGraphIndex noSummaries (gs "a.md") 0 =
        .node (gs "a.md") [] []
    ∧ showNeighborhoodJSON exGraphIndex noSummaries (gs "a.md") 1 =
        .node (gs "a.md") [] [.node (gs "b.md") [] []] := by
  refine ⟨?_, ?_, ?_, ?_, ?_, ?_⟩
  · intro meta summaries f visited d hd
    exact buildGraph_depth_le_zero hd
  · simp [showNeighborhoodText, printTree, exGraphIndex, mkIndex, relEntry, noSummaries, gs]
  · simp [showNeighborhoodText, printTree, exGraphIndex, mkIndex, relEntry, noSummaries, gs]
  · simp [showNeighborhoodText, printTree, exGraphIndex, mkIndex, relEntry, noSummaries, gs]
  · simp [showNeighborhoodJSON, buildGraph, buildGraphList, exGraphIndex, mkIndex, relEntry,
          noSummaries, gs]
  · simp [showNeighborhoodJSON, buildGraph, buildGraphList, exGraphIndex, mkIndex, relEntry,
          noSummaries, gs]

/-- C7 witness: the JSON traversal at depth 0 returns the bare root. -/
theorem C7_depth_semantics_witness :
    buildGraph exGraphIndex noSummaries (gs "a.md") 0 [] =
      (.node (gs "a.md") (noSummaries (gs "a.md")) [], []) :=
  C7_depth_semantics.1 exGraphIndex noSummaries (gs "a.md") [] 0 (by decide)

/-- A SHA-256 digest is 32 bytes. -/
lemma sha256_length (msg : List Nat) : (sha256 msg).length = 32 := by
  simp [sha256, wordBE4]

/-- Hex encoding doubles the length. -/
lemma hexEncode_length (bs : List Nat) : (hexEncode bs).length = 2 * bs.length := by
  induction bs with
  | nil => rfl
  | cons b bs ih =>
      simp only [hexEncode, List.map_cons, List.flatten_cons, List.length_append,
        List.length_cons] at *
      simp [hexByte] at *
      omega

/-- Every character of a hex encoding is a hex digit. -/
lemma mem_hexEncode {c : Char} {bs : List Nat} (h : c ∈ hexEncode bs) :
    c ∈ gs "0123456789abcdef" := by
  have h16 : ∀ k, k < 16 → Nat.digitChar k ∈ gs "0123456789abcdef" := by decide
  simp only [hexEncode, List.mem_flatten, List.mem_map] at h
  obtain ⟨l, ⟨b, _, rfl⟩, hc⟩ := h
  simp only [hexByte, List.mem_cons, List.not_mem_nil, or_false] at hc
  rcases hc with rfl | rfl
  · exact h16 _ (Nat.mod_lt _ (by norm_num))
  · exact h16 _ (Nat.mod_lt _ (by norm_num))

/-- C3: the content fingerprint depends on the body alone — any two notes
with equal body content hash identically whatever their header fields — it is
always exactly 12 hexadecimal characters, and on the tested inputs changing
the body by one character (with the header changed too, to underline its
irrelevance) changes the fingerprint. -/
theorem C3_fingerprint :
    (∀ n1 n2 : Note, n1.content = n2.content → ContentHash n1 = ContentHash n2)
    ∧ (∀ n : Note, (ContentHash n).length = 12
        ∧ ∀ c ∈ ContentHash n, c ∈ gs "0123456789abcdef")
    ∧ ContentHash ⟨gs "t.md", Frontmatter.empty, gs "Some content here"⟩ ≠
        ContentHash ⟨gs "t.md", ⟨⟨2025, 1, 11, 14, 23⟩, [gs "x"], gs "s", [gs "y.md"]⟩,
                     gs "Some content herf"⟩ := by
  refine ⟨?_, ?_, ?_⟩
  · intro n1 n2 h
    unfold ContentHash
    rw [h]
  · intro n
    constructor
    · rw [ContentHash, List.length_take, hexEncode_length, sha256_length]
      norm_num
    · intro c hc
      exact mem_hexEncode (List.take_subset _ _ hc)
  · decide

/-- C3 witness: two notes with the same body but different filenames and
headers receive the same fingerprint. -/
theorem C3_fingerprint_witness :
    ContentHash ⟨gs "p.md", Frontmatter.empty, gs "hello"⟩ =
      ContentHash ⟨gs "q.md", ⟨⟨2025, 1, 1, 0, 0⟩, [gs "t"], gs "sum", []⟩, gs "hello"⟩ :=
  C3_fingerprint.1 _ _ rfl

/-- C5: `ParseNoteContent` fails if and only if the opening marker stands at
position 0, a closing marker is found, and the enclosed header block cannot
be decoded; whenever the opening marker is absent or no closing marker
exists, it succeeds with the whole input as body and the empty header
(creation time unset, tags and related empty, summary empty) — never an
error. -/
theorem C5_parse_error_iff (filename content : GoStr) :
    ((∃ e, ParseNoteContent filename content = .error e) ↔
      (startsWith content (gs "---\n") = true
       ∧ ∃ idx, closingIdx (content.drop 4) = some idx
           ∧ decodeFrontmatter ((content.drop 4).take idx) = none))
    ∧ ((startsWith content (gs "---\n") = false ∨ closingIdx (content.drop 4) = none) →
        ParseNoteContent filename content =
          .ok ⟨filename, ⟨NoteTime.zero, [], [], []⟩, content⟩) := by
  by_cases hs : startsWith content (gs "---\n") = true
  · rcases hidx : closingIdx (content.drop 4) with _ | idx
    · constructor
      · simp [ParseNoteContent, hs, hidx, Frontmatter.empty]
      · intro _
        simp [ParseNoteContent, hs, hidx, Frontmatter.empty]
    · rcases hdec : decodeFrontmatter ((content.drop 4).take idx) with _ | fm
      · constructor
        · simp [ParseNoteContent, hs, hidx, hdec]
          exact ⟨ParseError.invalidFrontmatter, trivial⟩
        · intro h
          rcases h with h | h
          · rw [hs] at h
            cases h
          · cases h
      · constructor
        · simp [ParseNoteContent, hs, hidx, hdec]
        · intro h
          rcases h with h | h
          · rw [hs] at h
            cases h
          · cases h
  · have hs2 : startsWith content (gs "---\n") = false := by
      rwa [Bool.not_eq_true] at hs
    constructor
    · simp [ParseNoteContent, hs2, Frontmatter.empty]
    · intro _
      simp [ParseNoteContent, hs2, Frontmatter.empty]

/-- C5 witness: input without a marker parses to itself as body under the
empty header. -/
theorem C5_parse_error_iff_witness :
    ParseNoteContent (gs "test.md") (gs "Just plain content") =
      .ok ⟨gs "test.md", ⟨NoteTime.zero, [], [], []⟩, gs "Just plain content"⟩ :=
  (C5_parse_error_iff (gs "test.md") (gs "Just plain content")).2 (Or.inl (by decide))

/-- A string starts with any of its own prefixes. -/
lemma startsWith_append_self (p s : GoStr) : startsWith (p ++ s) p = true := by
  induction p with
  | nil => simp [startsWith]
  | cons c p ih => simp [startsWith, ih]

/-- A prefix check fails on a first-character mismatch. -/
lemma startsWith_cons_of_ne {c p : Char} (h : c ≠ p) (s ps : GoStr) :
    startsWith (c :: s) (p :: ps) = false := by
  simp [startsWith, h]

/-- A pattern found at position 0. -/
lemma findSubstr_of_startsWith {pat s : GoStr} (h : startsWith s pat = true) :
    findSubstr pat s = some 0 := by
  cases s <;> simp [findSubstr, h]

/-- The search skips a character that cannot start a match. -/
lemma findSubstr_cons_of_ne {p c : Char} (pat : GoStr) (h : c ≠ p) (s : GoStr) :
    findSubstr (p :: pat) (c :: s) = (findSubstr (p :: pat) s).map (· + 1) := by
  simp [findSubstr, startsWith_cons_of_ne h]

/-- No match can start inside a segment free of the pattern's first
character, so the search resumes after it. -/
lemma findSubstr_append_of_ne {p : Char} (pat l s : GoStr) (h : ∀ c ∈ l, c ≠ p) :
    findSubstr (p :: pat) (l ++ s) = (findSubstr (p :: pat) s).map (· + l.length) := by
  induction l with
  | nil =>
      rw [List.nil_append]
      cases findSubstr (p :: pat) s <;> simp
  | cons c l ih =>
      rw [List.cons_append, findSubstr_cons_of_ne pat (h c (by simp)) _,
          ih (fun x hx => h x (by simp [hx]))]
      cases findSubstr (p :: pat) s <;> simp <;> omega

/-- A line break not followed by the rest of the marker is skipped. -/
lemma findSubstr_newline_skip {pat z : GoStr} (h : startsWith z pat = false) :
    findSubstr ('\n' :: pat) ('\n' :: z) = (findSubstr ('\n' :: pat) z).map (· + 1) := by
  have hsw : startsWith ('\n' :: z) ('\n' :: pat) = false := by simp [startsWith, h]
  simp [findSubstr, hsw]

/-- Splitting always produces at least one piece. -/
lemma splitOnChar_ne_nil (sep : Char) (s : GoStr) : splitOnChar sep s ≠ [] := by
  cases s with
  | nil => simp [splitOnChar]
  | cons c rest =>
      rw [splitOnChar]
      rcases h : splitOnChar sep rest with _ | ⟨l, ls⟩
      · simp
      · by_cases hc : c = sep <;> simp [hc]

/-- A separator-free string is one piece. -/
lemma splitOnChar_no_sep {sep : Char} {l : GoStr} (h : ∀ c ∈ l, c ≠ sep) :
    splitOnChar sep l = [l] := by
  induction l with
  | nil => rfl
  | cons c l ih =>
      rw [splitOnChar, ih (fun x hx => h x (by simp [hx]))]
      simp [h c (by simp)]

/-- Splitting peels off a separator-free segment up to the first
separator. -/
lemma splitOnChar_append_sep {sep : Char} {l : GoStr} (s : GoStr) (h : ∀ c ∈ l, c ≠ sep) :
    splitOnChar sep (l ++ sep :: s) = l :: splitOnChar sep s := by
  induction l with
  | nil =>
      rw [List.nil_append, splitOnChar]
      rcases hs : splitOnChar sep s with _ | ⟨x, xs⟩
      · exact absurd hs (splitOnChar_ne_nil sep s)
      · simp
  | cons c l ih =>
      rw [List.cons_append, splitOnChar, ih (fun x hx => h x (by simp [hx]))]
      simp [h c (by simp)]

/-- Dropping leading spaces from a string that has none. -/
lemma dropWhile_space_eq_self {s : GoStr} (h : s.head? ≠ some ' ') :
    s.dropWhile (fun c => c = ' ') = s := by
  cases s with
  | nil => rfl
  | cons c t =>
      have hc : ¬c = ' ' := by simpa using h
      simp [List.dropWhile_cons, hc]

/-- Trimming a string with no edge spaces is the identity. -/
lemma trimSpaces_no_edge {s : GoStr} (h1 : s.head? ≠ some ' ') (h2 : s.getLast? ≠ some ' ') :
    trimSpaces s = s := by
  unfold trimSpaces
  rw [dropWhile_space_eq_self h1,
      dropWhile_space_eq_self (by rw [List.head?_reverse]; exact h2),
      List.reverse_reverse]

/-- A string with a non-space head does not trim to empty. -/
lemma trimSpaces_cons_ne_nil {c : Char} {s : GoStr} (h : c ≠ ' ') :
    trimSpaces (c :: s) ≠ [] := by
  have hinner : (c :: s).dropWhile (fun x => x = ' ') = c :: s :=
    dropWhile_space_eq_self (by simpa using h)
  unfold trimSpaces
  rw [hinner]
  intro hcon
  rw [List.reverse_eq_nil_iff, List.dropWhile_eq_nil_iff] at hcon
  have hcc := hcon c (by simp)
  simp at hcc
  exact h hcc

/-- Dropping leading spaces passes over an all-space segment. -/
lemma dropWhile_space_append {pre : GoStr} (hpre : ∀ c ∈ pre, c = ' ') (t : GoStr) :
    (pre ++ t).dropWhile (fun c => c = ' ') = t.dropWhile (fun c => c = ' ') := by
  induction pre with
  | nil => rfl
  | cons c pre ih =>
      simp [List.dropWhile_cons, hpre c (by simp), ih (fun x hx => hpre x (by simp [hx]))]

/-- Trimming strips an all-space segment before a string with no edge
spaces. -/
lemma trimSpaces_space_append {pre t : GoStr} (hpre : ∀ c ∈ pre, c = ' ')
    (h1 : t.head? ≠ some ' ') (h2 : t.getLast? ≠ some ' ') :
    trimSpaces (pre ++ t) = t := by
  unfold trimSpaces
  rw [dropWhile_space_append hpre, dropWhile_space_eq_self h1,
      dropWhile_space_eq_self (by rw [List.head?_reverse]; exact h2),
      List.reverse_reverse]

/-- Reading back a printed decimal digit. -/
lemma charDigit_digitChar {k : Nat} (h : k < 10) : charDigit (Nat.digitChar k) = some k := by
  have hall : ∀ k < 10, charDigit (Nat.digitChar k) = some k := by decide
  exact hall k h

/-- Decimal digit characters are not spaces. -/
lemma digitChar_mod_ne_space (n : Nat) : Nat.digitChar (n % 10) ≠ ' ' := by
  have hall : ∀ k < 10, Nat.digitChar k ≠ ' ' := by decide
  exact hall _ (Nat.mod_lt _ (by norm_num))

/-- The sixteen characters of a formatted timestamp. -/
lemma formatNoteTime_eq (t : NoteTime) : formatNoteTime t =
    [Nat.digitChar (t.year / 1000 % 10), Nat.digitChar (t.year / 100 % 10),
     Nat.digitChar (t.year / 10 % 10), Nat.digitChar (t.year % 10), '-',
     Nat.digitChar (t.month / 10 % 10), Nat.digitChar (t.month % 10), '-',
     Nat.digitChar (t.day / 10 % 10), Nat.digitChar (t.day % 10), ' ',
     Nat.digitChar (t.hour / 10 % 10), Nat.digitChar (t.hour % 10), ':',
     Nat.digitChar (t.minute / 10 % 10), Nat.digitChar (t.minute % 10)] := by
  simp [formatNoteTime, pad4, pad2, gs]

/-- A formatted timestamp starts with a digit, not a space. -/
lemma formatNoteTime_head_ne (t : NoteTime) : (formatNoteTime t).head? ≠ some ' ' := by
  rw [formatNoteTime_eq]
  simp
  exact digitChar_mod_ne_space _

/-- A formatted timestamp ends with a digit, not a space. -/
lemma formatNoteTime_last_ne (t : NoteTime) : (formatNoteTime t).getLast? ≠ some ' ' := by
  rw [formatNoteTime_eq, ← List.head?_reverse]
  simp
  exact digitChar_mod_ne_space _

/-- No month has more than 31 days. -/
lemma daysIn_le (y m : Nat) : daysIn y m ≤ 31 := by
  unfold daysIn
  split_ifs <;> norm_num

/-- Parsing a formatted timestamp recovers the original components, for any
calendar-valid time with a four-digit year. -/
lemma parseNoteTime_format {t : NoteTime} (hv : t.valid = true) (hy : t.year ≤ 9999) :
    parseNoteTime (formatNoteTime t) = some t := by
  obtain ⟨y, mo, da, ho, mi⟩ := t
  simp only [NoteTime.valid, Bool.and_eq_true, decide_eq_true_eq] at hv
  obtain ⟨⟨⟨⟨⟨hm1, hm2⟩, hd1⟩, hd2⟩, hh⟩, hmi⟩ := hv
  have hy2 : y ≤ 9999 := hy
  rw [formatNoteTime_eq]
  simp only [parseNoteTime]
  rw [if_pos (by simp)]
  have h10 : ∀ n : Nat, charDigit (Nat.digitChar (n % 10)) = some (n % 10) :=
    fun n => charDigit_digitChar (Nat.mod_lt _ (by norm_num))
  simp only [h10, Option.bind_eq_bind, Option.some_bind]
  have e1 : ((y / 1000 % 10 * 10 + y / 100 % 10) * 10 + y / 10 % 10) * 10 + y % 10 = y := by
    omega
  have e2 : mo / 10 % 10 * 10 + mo % 10 = mo := by omega
  have hda : da ≤ 31 := le_trans hd2 (daysIn_le y mo)
  have e3 : da / 10 % 10 * 10 + da % 10 = da := by omega
  have e4 : ho / 10 % 10 * 10 + ho % 10 = ho := by omega
  have e5 : mi / 10 % 10 * 10 + mi % 10 = mi := by omega
  simp only [e1, e2, e3, e4, e5]
  rw [if_pos]
  simp only [NoteTime.valid, Bool.and_eq_true, decide_eq_true_eq]
  exact ⟨⟨⟨⟨⟨hm1, hm2⟩, hd1⟩, hd2⟩, hh⟩, hmi⟩

/-- Printable summary characters pass through `%q` unescaped. -/
lemma quoteChar_plain {c : Char} (h : plainChar c = true) : quoteChar c = [c] := by
  simp only [plainChar, Bool.and_eq_true, decide_eq_true_eq] at h
  obtain ⟨⟨⟨h32, h126⟩, hq⟩, hb⟩ := h
  have hn : c ≠ '\n' := by
    intro hc
    rw [hc] at h32
    exact absurd h32 (by decide)
  have ht : c ≠ '\t' := by
    intro hc
    rw [hc] at h32
    exact absurd h32 (by decide)
  simp [quoteChar, hq, hb, hn, ht]

/-- Escaping a printable summary leaves it unchanged. -/
lemma flatten_quote_plain {s : GoStr} (h : s.all plainChar = true) :
    (s.map quoteChar).flatten = s := by
  induction s with
  | nil => rfl
  | cons c s ih =>
      rw [List.all_cons, Bool.and_eq_true] at h
      simp [quoteChar_plain h.1, ih h.2]

/-- Unquoting a printable body followed by the closing quote recovers the
body. -/
lemma unquoteBody_plain {s : GoStr} (h : s.all plainChar = true) :
    unquoteBody (s ++ ['"']) = some s := by
  induction s with
  | nil => rfl
  | cons c s ih =>
      rw [List.all_cons, Bool.and_eq_true] at h
      have hc := h.1
      simp only [plainChar, Bool.and_eq_true, decide_eq_true_eq] at hc
      obtain ⟨⟨⟨h32, h126⟩, hq⟩, hb⟩ := hc
      rw [List.cons_append, unquoteBody.eq_def]
      simp only [hq, hb, if_false, ite_false]
      rw [ih h.2]
      rfl

/-- A quoted scalar ends with its closing quote. -/
lemma quoteGo_getLast (s : GoStr) : (quoteGo s).getLast? = some '"' := by
  rw [← List.head?_reverse]
  simp [quoteGo]

/-- The summary value after the key separator decodes back to the original
printable summary. -/
lemma parseSummaryValue_quote {s : GoStr} (h : s.all plainChar = true) :
    parseSummaryValue (' ' :: quoteGo s) = some s := by
  have htrim : trimSpaces (' ' :: quoteGo s) = quoteGo s := by
    have hshape : (' ' :: quoteGo s) = [' '] ++ quoteGo s := rfl
    rw [hshape]
    exact trimSpaces_space_append (by simp) (by simp [quoteGo]) (by rw [quoteGo_getLast]; simp)
  have hq : trimSpaces (' ' :: quoteGo s) = '"' :: ((s.map quoteChar).flatten ++ ['"']) := by
    rw [htrim, quoteGo]
    simp
  unfold parseSummaryValue
  rw [hq]
  simp only [if_pos rfl]
  rw [flatten_quote_plain h]
  exact unquoteBody_plain h

/-- What a flow-safe element guarantees. -/
lemma goodElem_parts {t : GoStr} (h : goodElem t = true) :
    t ≠ [] ∧ (∀ c ∈ t, c ≠ ',' ∧ c ≠ '\n') ∧ t.head? ≠ some ' ' ∧ t.getLast? ≠ some ' ' := by
  simp only [goodElem, Bool.and_eq_true, Bool.not_eq_true', List.all_eq_true,
    decide_eq_true_eq, List.isEmpty_eq_false, ne_eq] at h
  obtain ⟨⟨⟨hne, hall⟩, hh⟩, hl⟩ := h
  refine ⟨hne, ?_, by simpa using hh, by simpa using hl⟩
  intro c hc
  have hcc := hall c hc
  constructor
  · intro heq
    rw [heq] at hcc
    simp at hcc
  · intro heq
    rw [heq] at hcc
    simp at hcc

/-- Joining a single element. -/
lemma joinSep_single (sep x : GoStr) : joinSep sep [x] = x := rfl

/-- Joining at least two elements starts with the first and a separator. -/
lemma joinSep_cons_cons (sep x y : GoStr) (rest : List GoStr) :
    joinSep sep (x :: y :: rest) = x ++ sep ++ joinSep sep (y :: rest) := rfl

/-- Splitting a comma-joined list of flow-safe elements at commas and
trimming recovers the elements, tolerating leading spaces before the first
element. -/
lemma split_join_good : ∀ (ts : List GoStr), ts ≠ [] → ts.all goodElem = true →
    ∀ (pre : GoStr), (∀ c ∈ pre, c = ' ') →
    (splitOnChar ',' (pre ++ joinSep (gs ", ") ts)).map trimSpaces = ts := by
  intro ts
  induction ts with
  | nil => intro h; exact absurd rfl h
  | cons t rest ih =>
      intro _ hall pre hpre
      rw [List.all_cons, Bool.and_eq_true] at hall
      obtain ⟨hgood, hrest⟩ := hall
      obtain ⟨hne, hchars, hh, hl⟩ := goodElem_parts hgood
      have hnc : ∀ c ∈ pre ++ t, c ≠ ',' := by
        intro c hc
        rcases List.mem_append.mp hc with hc | hc
        · rw [hpre c hc]
          decide
        · exact (hchars c hc).1
      rcases rest with _ | ⟨t2, rest2⟩
      · rw [joinSep_single]
        rw [splitOnChar_no_sep hnc]
        simp [trimSpaces_space_append hpre hh hl]
      · rw [joinSep_cons_cons]
        have hshape : pre ++ (t ++ gs ", " ++ joinSep (gs ", ") (t2 :: rest2)) =
            (pre ++ t) ++ ',' :: ([' '] ++ joinSep (gs ", ") (t2 :: rest2)) := by
          simp [gs]
        rw [hshape]
        rw [splitOnChar_append_sep _ hnc]
        rw [List.map_cons]
        rw [trimSpaces_space_append hpre hh hl]
        rw [ih (List.cons_ne_nil _ _) hrest [' '] (by simp)]

/-- A flow sequence is its elements joined inside brackets. -/
lemma flowList_shape (ts : List GoStr) :
    flowList ts = '[' :: (joinSep (gs ", ") ts ++ [']']) := by
  simp [flowList, gs]

/-- The flow-sequence value after the key separator decodes back to the
original flow-safe elements. -/
lemma parseFlowList_flow {ts : List GoStr} (hall : ts.all goodElem = true) :
    parseFlowList (' ' :: flowList ts) = some ts := by
  have htrim : trimSpaces (' ' :: flowList ts) = flowList ts := by
    have hshape : (' ' :: flowList ts) = [' '] ++ flowList ts := rfl
    rw [hshape]
    refine trimSpaces_space_append (by simp) ?_ ?_
    · rw [flowList_shape]
      simp
    · rw [flowList_shape, ← List.head?_reverse]
      simp
  have hinner : ((flowList ts).drop 1).dropLast = joinSep (gs ", ") ts := by
    rw [flowList_shape]
    simp
  unfold parseFlowList
  rw [htrim]
  rw [if_pos ?cond]
  case cond =>
    refine ⟨?_, ?_, ?_⟩
    · rw [flowList_shape]
      have hsh : ('[' :: (joinSep (gs ", ") ts ++ [']'])) =
          gs "[" ++ (joinSep (gs ", ") ts ++ [']']) := rfl
      rw [hsh]
      exact startsWith_append_self _ _
    · rw [flowList_shape]
      unfold endsWith
      simp [List.reverse_append, gs, startsWith]
    · rw [flowList_shape]
      simp
  rw [hinner]
  rcases ts with _ | ⟨t, rest⟩
  · rw [show joinSep (gs ", ") [] = [] from rfl]
    simp [trimSpaces]
  · have hparts := hall
    rw [List.all_cons, Bool.and_eq_true] at hparts
    obtain ⟨hne, hchars, hh, hl⟩ := goodElem_parts hparts.1
    obtain ⟨z, hz⟩ : ∃ z, joinSep (gs ", ") (t :: rest) = t ++ z := by
      rcases rest with _ | ⟨t2, rest2⟩
      · exact ⟨[], by rw [joinSep_single]; simp⟩
      · exact ⟨gs ", " ++ joinSep (gs ", ") (t2 :: rest2), by rw [joinSep_cons_cons]; simp⟩
    have htne : trimSpaces (joinSep (gs ", ") (t :: rest)) ≠ [] := by
      rw [hz]
      rcases t with _ | ⟨c, t2⟩
      · exact absurd rfl hne
      · have hc : c ≠ ' ' := by simpa using hh
        rw [List.cons_append]
        exact trimSpaces_cons_ne_nil hc
    rw [if_neg htne]
    have hsplit := split_join_good (t :: rest) (List.cons_ne_nil _ _) hall [] (by simp)
    rw [List.nil_append] at hsplit
    rw [hsplit]

/-- The serialized `created` line decodes to an update of the creation
time. -/
lemma parseHeaderLine_created (fm : Frontmatter) {t : NoteTime}
    (hv : t.valid = true) (hy : t.year ≤ 9999) :
    parseHeaderLine fm (gs "created: " ++ formatNoteTime t) = some { fm with created := t } := by
  have hcons : gs "created: " ++ formatNoteTime t = 'c' :: (gs "reated: " ++ formatNoteTime t) := rfl
  have hne : trimSpaces (gs "created: " ++ formatNoteTime t) ≠ [] := by
    rw [hcons]
    exact trimSpaces_cons_ne_nil (by decide)
  unfold parseHeaderLine
  rw [if_neg hne]
  rw [if_pos (show startsWith (gs "created: " ++ formatNoteTime t) (gs "created:") = true from rfl)]
  have hdrop : (gs "created: " ++ formatNoteTime t).drop 8 = ' ' :: formatNoteTime t := rfl
  rw [hdrop]
  have htrim : trimSpaces (' ' :: formatNoteTime t) = formatNoteTime t := by
    have hsh : (' ' :: formatNoteTime t) = [' '] ++ formatNoteTime t := rfl
    rw [hsh]
    exact trimSpaces_space_append (by simp) (formatNoteTime_head_ne t) (formatNoteTime_last_ne t)
  rw [htrim]
  have hfmt : formatNoteTime t ≠ [] := by
    rw [formatNoteTime_eq]
    simp
  unfold parseTimeValue
  rw [if_neg hfmt]
  rw [parseNoteTime_format hv hy]
  rfl

/-- The serialized `tags` line decodes to an update of the tags. -/
lemma parseHeaderLine_tags (fm : Frontmatter) {ts : List GoStr}
    (hall : ts.all goodElem = true) :
    parseHeaderLine fm (gs "tags: " ++ flowList ts) = some { fm with tags := ts } := by
  have hcons : gs "tags: " ++ flowList ts = 't' :: (gs "ags: " ++ flowList ts) := rfl
  have hne : trimSpaces (gs "tags: " ++ flowList ts) ≠ [] := by
    rw [hcons]
    exact trimSpaces_cons_ne_nil (by decide)
  have h1 : startsWith (gs "tags: " ++ flowList ts) (gs "created:") = false := rfl
  unfold parseHeaderLine
  rw [if_neg hne]
  rw [if_neg (by simp [h1])]
  rw [if_pos (show startsWith (gs "tags: " ++ flowList ts) (gs "tags:") = true from rfl)]
  have hdrop : (gs "tags: " ++ flowList ts).drop 5 = ' ' :: flowList ts := rfl
  rw [hdrop]
  rw [parseFlowList_flow hall]
  rfl

/-- The serialized `summary` line decodes to an update of the summary. -/
lemma parseHeaderLine_summary (fm : Frontmatter) {s : GoStr}
    (hp : s.all plainChar = true) :
    parseHeaderLine fm (gs "summary: " ++ quoteGo s) = some { fm with summary := s } := by
  have hcons : gs "summary: " ++ quoteGo s = 's' :: (gs "ummary: " ++ quoteGo s) := rfl
  have hne : trimSpaces (gs "summary: " ++ quoteGo s) ≠ [] := by
    rw [hcons]
    exact trimSpaces_cons_ne_nil (by decide)
  have h1 : startsWith (gs "summary: " ++ quoteGo s) (gs "created:") = false := rfl
  have h2 : startsWith (gs "summary: " ++ quoteGo s) (gs "tags:") = false := rfl
  unfold parseHeaderLine
  rw [if_neg hne]
  rw [if_neg (by simp [h1])]
  rw [if_neg (by simp [h2])]
  rw [if_pos (show startsWith (gs "summary: " ++ quoteGo s) (gs "summary:") = true from rfl)]
  have hdrop : (gs "summary: " ++ quoteGo s).drop 8 = ' ' :: quoteGo s := rfl
  rw [hdrop]
  rw [parseSummaryValue_quote hp]
  rfl

/-- The serialized `related` line decodes to an update of the related
list. -/
lemma parseHeaderLine_related (fm : Frontmatter) {ts : List GoStr}
    (hall : ts.all goodElem = true) :
    parseHeaderLine fm (gs "related: " ++ flowList ts) = some { fm with related := ts } := by
  have hcons : gs "related: " ++ flowList ts = 'r' :: (gs "elated: " ++ flowList ts) := rfl
  have hne : trimSpaces (gs "related: " ++ flowList ts) ≠ [] := by
    rw [hcons]
    exact trimSpaces_cons_ne_nil (by decide)
  have h1 : startsWith (gs "related: " ++ flowList ts) (gs "created:") = false := rfl
  have h2 : startsWith (gs "related: " ++ flowList ts) (gs "tags:") = false := rfl
  have h3 : startsWith (gs "related: " ++ flowList ts) (gs "summary:") = false := rfl
  unfold parseHeaderLine
  rw [if_neg hne]
  rw [if_neg (by simp [h1])]
  rw [if_neg (by simp [h2])]
  rw [if_neg (by simp [h3])]
  rw [if_pos (show startsWith (gs "related: " ++ flowList ts) (gs "related:") = true from rfl)]
  have hdrop : (gs "related: " ++ flowList ts).drop 8 = ' ' :: flowList ts := rfl
  rw [hdrop]
  rw [parseFlowList_flow hall]
  rfl

/-- Decimal digit characters are not line breaks. -/
lemma digitChar_mod_ne_nl (n : Nat) : Nat.digitChar (n % 10) ≠ '\n' := by
  have hall : ∀ k < 10, Nat.digitChar k ≠ '\n' := by decide
  exact hall _ (Nat.mod_lt _ (by norm_num))

/-- A formatted timestamp contains no line break. -/
lemma no_nl_format (t : NoteTime) : ∀ c ∈ formatNoteTime t, c ≠ '\n' := by
  rw [formatNoteTime_eq]
  intro c hc
  simp only [List.mem_cons, List.not_mem_nil, or_false] at hc
  rcases hc with rfl|rfl|rfl|rfl|rfl|rfl|rfl|rfl|rfl|rfl|rfl|rfl|rfl|rfl|rfl|rfl
  all_goals first | exact digitChar_mod_ne_nl _ | decide

/-- Characters of a joined list come from its elements or a separator. -/
lemma mem_joinSep {ts : List GoStr} {c : Char} (hc : c ∈ joinSep (gs ", ") ts) :
    (∃ t ∈ ts, c ∈ t) ∨ c = ',' ∨ c = ' ' := by
  induction ts with
  | nil => cases hc
  | cons t rest ih =>
      rcases rest with _ | ⟨t2, rest2⟩
      · rw [joinSep_single] at hc
        exact Or.inl ⟨t, by simp, hc⟩
      · rw [joinSep_cons_cons] at hc
        rcases List.mem_append.mp hc with hc1 | hc2
        · rcases List.mem_append.mp hc1 with hc3 | hc4
          · exact Or.inl ⟨t, by simp, hc3⟩
          · have : c = ',' ∨ c = ' ' := by
              have hgs : ∀ x ∈ gs ", ", x = ',' ∨ x = ' ' := by decide
              exact hgs c hc4
            exact Or.inr this
        · rcases ih hc2 with ⟨t3, ht3, hct3⟩ | h
          · exact Or.inl ⟨t3, by simp [ht3], hct3⟩
          · exact Or.inr h

/-- Characters of a flow sequence come from its elements or its
punctuation. -/
lemma mem_flowList {ts : List GoStr} {c : Char} (hc : c ∈ flowList ts) :
    (∃ t ∈ ts, c ∈ t) ∨ c = '[' ∨ c = ']' ∨ c = ',' ∨ c = ' ' := by
  rw [flowList_shape] at hc
  rcases List.mem_cons.mp hc with rfl | hc
  · exact Or.inr (Or.inl rfl)
  · rcases List.mem_append.mp hc with hc1 | hc2
    · rcases mem_joinSep hc1 with h | h | h
      · exact Or.inl h
      · exact Or.inr (Or.inr (Or.inr (Or.inl h)))
      · exact Or.inr (Or.inr (Or.inr (Or.inr h)))
    · simp at hc2
      exact Or.inr (Or.inr (Or.inl hc2))

/-- Characters of a quoted printable summary are the quotes or the summary's
own characters. -/
lemma mem_quoteGo_plain {s : GoStr} {c : Char} (hp : s.all plainChar = true)
    (hc : c ∈ quoteGo s) : c = '"' ∨ c ∈ s := by
  unfold quoteGo at hc
  rw [flatten_quote_plain hp] at hc
  rcases List.mem_cons.mp hc with rfl | hc
  · exact Or.inl rfl
  · rcases List.mem_append.mp hc with hc1 | hc2
    · exact Or.inr hc1
    · simp at hc2
      exact Or.inl hc2

/-- Flow-safe elements contain no line break. -/
lemma goodElem_all_no_nl {ts : List GoStr} (hall : ts.all goodElem = true) :
    ∀ t ∈ ts, ∀ c ∈ t, c ≠ '\n' := by
  intro t ht c hc
  rw [List.all_eq_true] at hall
  exact ((goodElem_parts (hall t ht)).2.1 c hc).2

/-- The `created` line contains no line break. -/
lemma no_nl_lineC (t : NoteTime) : ∀ c ∈ gs "created: " ++ formatNoteTime t, c ≠ '\n' := by
  intro c hc
  rcases List.mem_append.mp hc with h | h
  · exact (by decide : ∀ x ∈ gs "created: ", x ≠ '\n') c h
  · exact no_nl_format t c h

/-- The `tags` line contains no line break. -/
lemma no_nl_lineT {ts : List GoStr} (hall : ts.all goodElem = true) :
    ∀ c ∈ gs "tags: " ++ flowList ts, c ≠ '\n' := by
  intro c hc
  rcases List.mem_append.mp hc with h | h
  · exact (by decide : ∀ x ∈ gs "tags: ", x ≠ '\n') c h
  · rcases mem_flowList h with ⟨t, ht, hct⟩ | h | h | h | h
    · exact goodElem_all_no_nl hall t ht c hct
    all_goals subst h; decide

/-- The `summary` line contains no line break. -/
lemma no_nl_lineS {s : GoStr} (hp : s.all plainChar = true) :
    ∀ c ∈ gs "summary: " ++ quoteGo s, c ≠ '\n' := by
  intro c hc
  rcases List.mem_append.mp hc with h | h
  · exact (by decide : ∀ x ∈ gs "summary: ", x ≠ '\n') c h
  · rcases mem_quoteGo_plain hp h with h | h
    · subst h; decide
    · rw [List.all_eq_true] at hp
      have := hp c h
      simp only [plainChar, Bool.and_eq_true, decide_eq_true_eq] at this
      intro hcon
      rw [hcon] at this
      exact absurd this.1.1.1 (by decide)

/-- The `related` line contains no line break. -/
lemma no_nl_lineR {ts : List GoStr} (hall : ts.all goodElem = true) :
    ∀ c ∈ gs "related: " ++ flowList ts, c ≠ '\n' := by
  intro c hc
  rcases List.mem_append.mp hc with h | h
  · exact (by decide : ∀ x ∈ gs "related: ", x ≠ '\n') c h
  · rcases mem_flowList h with ⟨t, ht, hct⟩ | h | h | h | h
    · exact goodElem_all_no_nl hall t ht c hct
    all_goals subst h; decide

/-- What a well-formed header guarantees. -/
lemma wellFormedFm_parts {fm : Frontmatter} (h : wellFormedFm fm = true) :
    fm.created.valid = true ∧ fm.created.year ≤ 9999 ∧ fm.tags.all goodElem = true
    ∧ fm.related.all goodElem = true ∧ fm.summary.all plainChar = true := by
  simp only [wellFormedFm, Bool.and_eq_true, decide_eq_true_eq] at h
  obtain ⟨⟨⟨⟨hv, hy⟩, ht⟩, hr⟩, hs⟩ := h
  exact ⟨hv, hy, ht, hr, hs⟩

/-- The header block splits into exactly its four field lines. -/
lemma splitOnChar_fmBlock {fm : Frontmatter} (hwf : wellFormedFm fm = true) :
    splitOnChar '\n' (fmBlock fm) =
      [gs "created: " ++ formatNoteTime fm.created,
       gs "tags: " ++ flowList fm.tags,
       gs "summary: " ++ quoteGo fm.summary,
       gs "related: " ++ flowList fm.related] := by
  obtain ⟨hv, hy, ht, hr, hs⟩ := wellFormedFm_parts hwf
  unfold fmBlock
  rw [splitOnChar_append_sep _ (no_nl_lineC fm.created),
      splitOnChar_append_sep _ (no_nl_lineT ht),
      splitOnChar_append_sep _ (no_nl_lineS hs),
      splitOnChar_no_sep (no_nl_lineR hr)]

/-- Decoding the serialized header block of a well-formed header recovers
the header. -/
lemma decodeFrontmatter_fmBlock {fm : Frontmatter} (hwf : wellFormedFm fm = true) :
    decodeFrontmatter (fmBlock fm) = some fm := by
  obtain ⟨hv, hy, ht, hr, hs⟩ := wellFormedFm_parts hwf
  unfold decodeFrontmatter
  rw [splitOnChar_fmBlock hwf]
  obtain ⟨cr, tg, su, re⟩ := fm
  simp only [List.foldlM]
  rw [parseHeaderLine_created Frontmatter.empty hv hy]
  simp only [Option.bind_eq_bind, Option.some_bind]
  rw [parseHeaderLine_tags _ ht]
  simp only [Option.some_bind]
  rw [parseHeaderLine_summary _ hs]
  simp only [Option.some_bind]
  rw [parseHeaderLine_related _ hr]
  simp only [Option.some_bind]
  rfl

/-- A string not starting with a dash does not start the closing marker. -/
lemma startsWith_dash_false {c : Char} (h : c ≠ '-') (z : GoStr) :
    startsWith (c :: z) (gs "---\n") = false := by
  have hp : gs "---\n" = '-' :: gs "--\n" := rfl
  rw [hp]
  exact startsWith_cons_of_ne h _ _

/-- The first occurrence of the closing marker in the serialized text after
the opening marker is the line break that ends the header block: no field
line contains a line break, and every line break inside the block is
followed by the next field name, never by dashes. -/
lemma findSubstr_fmBlock {fm : Frontmatter} (hwf : wellFormedFm fm = true) (body : GoStr) :
    findSubstr (gs "\n---\n") (fmBlock fm ++ (gs "\n---\n" ++ body)) =
      some (fmBlock fm).length := by
  obtain ⟨hv, hy, ht, hr, hs⟩ := wellFormedFm_parts hwf
  have hpat : gs "\n---\n" = '\n' :: gs "---\n" := rfl
  have hshape : fmBlock fm ++ (gs "\n---\n" ++ body) =
      (gs "created: " ++ formatNoteTime fm.created) ++ '\n' ::
      ((gs "tags: " ++ flowList fm.tags) ++ '\n' ::
      ((gs "summary: " ++ quoteGo fm.summary) ++ '\n' ::
      ((gs "related: " ++ flowList fm.related) ++ ('\n' :: (gs "---\n" ++ body))))) := by
    simp [fmBlock, gs]
  rw [hshape, hpat]
  rw [findSubstr_append_of_ne _ _ _ (no_nl_lineC fm.created)]
  have hT : startsWith ((gs "tags: " ++ flowList fm.tags) ++ '\n' ::
      ((gs "summary: " ++ quoteGo fm.summary) ++ '\n' ::
      ((gs "related: " ++ flowList fm.related) ++ ('\n' :: (gs "---\n" ++ body)))))
      (gs "---\n") = false := by
    have hsh : (gs "tags: " ++ flowList fm.tags) ++ '\n' ::
        ((gs "summary: " ++ quoteGo fm.summary) ++ '\n' ::
        ((gs "related: " ++ flowList fm.related) ++ ('\n' :: (gs "---\n" ++ body)))) =
        't' :: ((gs "ags: " ++ flowList fm.tags) ++ '\n' ::
        ((gs "summary: " ++ quoteGo fm.summary) ++ '\n' ::
        ((gs "related: " ++ flowList fm.related) ++ ('\n' :: (gs "---\n" ++ body))))) := rfl
    rw [hsh]
    exact startsWith_dash_false (by decide) _
  rw [findSubstr_newline_skip hT]
  rw [findSubstr_append_of_ne _ _ _ (no_nl_lineT ht)]
  have hS : startsWith ((gs "summary: " ++ quoteGo fm.summary) ++ '\n' ::
      ((gs "related: " ++ flowList fm.related) ++ ('\n' :: (gs "---\n" ++ body))))
      (gs "---\n") = false := by
    have hsh : (gs "summary: " ++ quoteGo fm.summary) ++ '\n' ::
        ((gs "related: " ++ flowList fm.related) ++ ('\n' :: (gs "---\n" ++ body))) =
        's' :: ((gs "ummary: " ++ quoteGo fm.summary) ++ '\n' ::
        ((gs "related: " ++ flowList fm.related) ++ ('\n' :: (gs "---\n" ++ body)))) := rfl
    rw [hsh]
    exact startsWith_dash_false (by decide) _
  rw [findSubstr_newline_skip hS]
  rw [findSubstr_append_of_ne _ _ _ (no_nl_lineS hs)]
  have hR : startsWith ((gs "related: " ++ flowList fm.related) ++ ('\n' :: (gs "---\n" ++ body)))
      (gs "---\n") = false := by
    have hsh : (gs "related: " ++ flowList fm.related) ++ ('\n' :: (gs "---\n" ++ body)) =
        'r' :: ((gs "elated: " ++ flowList fm.related) ++ ('\n' :: (gs "---\n" ++ body))) := rfl
    rw [hsh]
    exact startsWith_dash_false (by decide) _
  rw [findSubstr_newline_skip hR]
  rw [findSubstr_append_of_ne _ _ _ (no_nl_lineR hr)]
  have hEnd : findSubstr ('\n' :: gs "---\n") ('\n' :: (gs "---\n" ++ body)) = some 0 := by
    apply findSubstr_of_startsWith
    have hsh : ('\n' :: (gs "---\n" ++ body)) = ('\n' :: gs "---\n") ++ body := rfl
    rw [hsh]
    exact startsWith_append_self _ _
  rw [hEnd]
  simp only [Option.map_some']
  simp [fmBlock, List.length_append]
  omega

/-- The closing-marker search lands exactly at the end of the header
block. -/
lemma closingIdx_fmBlock {fm : Frontmatter} (hwf : wellFormedFm fm = true) (body : GoStr) :
    closingIdx (fmBlock fm ++ (gs "\n---\n" ++ body)) = some (fmBlock fm).length := by
  unfold closingIdx
  rw [findSubstr_fmBlock hwf body]

/-- C1: codec round-trip — serializing any note whose header is well formed
(the losslessness condition behind "serializes without error": calendar-valid
four-digit creation time, flow-safe tags and related entries, printable
single-line summary) and parsing the result returns the note's filename,
a header whose fields all compare equal, and a byte-identical body. -/
theorem C1_codec_roundtrip (n : Note) (hwf : wellFormedFm n.frontmatter = true) :
    ParseNoteContent n.filename (ToMarkdown n) = .ok ⟨n.filename, n.frontmatter, n.content⟩ := by
  have hmd : ToMarkdown n = gs "---\n" ++ (fmBlock n.frontmatter ++ (gs "\n---\n" ++ n.content)) := by
    simp [ToMarkdown, fmBlock, gs]
  rw [hmd]
  unfold ParseNoteContent
  rw [if_pos (startsWith_append_self (gs "---\n") _)]
  have hdrop : (gs "---\n" ++ (fmBlock n.frontmatter ++ (gs "\n---\n" ++ n.content))).drop 4 =
      fmBlock n.frontmatter ++ (gs "\n---\n" ++ n.content) := rfl
  rw [hdrop]
  have hbody : (fmBlock n.frontmatter ++ (gs "\n---\n" ++ n.content)).drop
      ((fmBlock n.frontmatter).length + 5) = n.content := by
    rw [← List.append_assoc]
    have h5 : (fmBlock n.frontmatter ++ gs "\n---\n").length =
        (fmBlock n.frontmatter).length + 5 := by
      simp only [List.length_append]
      rfl
    rw [← h5, List.drop_left]
  simp only [closingIdx_fmBlock hwf n.content, List.take_left,
    decodeFrontmatter_fmBlock hwf, hbody]

/-- C1 witness: a typical enriched note round-trips through
`ToMarkdown`/`ParseNoteContent` unchanged. -/
theorem C1_codec_roundtrip_witness :
    ParseNoteContent exNote.filename (ToMarkdown exNote) =
      .ok ⟨exNote.filename, exNote.frontmatter, exNote.content⟩ :=
  C1_codec_roundtrip exNote (by decide)
